import Mathlib

/-!
Verification development for the hybrid retrieval and index-federation engine
(`src/indexer.py`, `src/corpus.py`, `src/rerank.py`, `src/utils.py`).

The Python code is shallowly embedded:
* Python `dict` (insertion-ordered) becomes an association list with
  update-in-place-or-append semantics (`alSet`) and first-match lookup (`alGet?`).
* Python's stable `sorted(..., reverse=True)` becomes an insertion sort that
  keeps earlier elements first among equal keys (`sortDescBy`).
* Machine floats become `ℚ` (exact arithmetic); external model capabilities
  (sentence embeddings, BM25 scoring, cross-encoder scoring) become abstract
  function parameters, since the code treats them as opaque oracles.
* `hashlib.sha256` is implemented concretely over byte lists, with words as
  `Nat` reduced `% 2^32`.
-/

namespace HLAI

/-! ## Association lists modelling Python dicts -/

/-- First-match lookup, `d.get(k)` on a Python dict. -/
def alGet? {κ ν : Type} [DecidableEq κ] : List (κ × ν) → κ → Option ν
  | [], _ => none
  | (j, w) :: d, k => if j = k then some w else alGet? d k

/-- `d.get(k, dflt)` on a Python dict. -/
def alGetD {κ ν : Type} [DecidableEq κ] (d : List (κ × ν)) (k : κ) (dflt : ν) : ν :=
  (alGet? d k).getD dflt

/-- `d[k] = v` on a Python dict: update the first occurrence in place, else append. -/
def alSet {κ ν : Type} [DecidableEq κ] : List (κ × ν) → κ → ν → List (κ × ν)
  | [], k, v => [(k, v)]
  | (j, w) :: d, k, v => if j = k then (k, v) :: d else (j, w) :: alSet d k v

/-- `del d[k]` / `d.pop(k, None)` on a Python dict (keys are unique in a dict,
so removing every matching pair is the same as removing the entry). -/
def alErase {κ ν : Type} [DecidableEq κ] : List (κ × ν) → κ → List (κ × ν)
  | [], _ => []
  | (j, w) :: d, k => if j = k then alErase d k else (j, w) :: alErase d k

section AListLemmas

variable {κ ν : Type} [DecidableEq κ]

theorem alGet?_cons (j : κ) (w : ν) (d : List (κ × ν)) (k : κ) :
    alGet? ((j, w) :: d) k = if j = k then some w else alGet? d k := rfl

theorem alGet?_eq_none_of_notMem {d : List (κ × ν)} {k : κ} (h : k ∉ d.map Prod.fst) :
    alGet? d k = none := by
  induction d with
  | nil => rfl
  | cons p d ih =>
    obtain ⟨j, w⟩ := p
    simp only [List.map_cons, List.mem_cons, not_or] at h
    have hjk : j ≠ k := fun he => h.1 he.symm
    simp only [alGet?, if_neg hjk]
    exact ih h.2

theorem alGetD_eq_default_of_notMem {d : List (κ × ν)} {k : κ} (h : k ∉ d.map Prod.fst)
    (dflt : ν) : alGetD d k dflt = dflt := by
  simp [alGetD, alGet?_eq_none_of_notMem h]

theorem alGet?_eq_of_mem_nodup {d : List (κ × ν)} {k : κ} {v : ν}
    (hmem : (k, v) ∈ d) (hnd : (d.map Prod.fst).Nodup) : alGet? d k = some v := by
  induction d with
  | nil => simp at hmem
  | cons p d ih =>
    obtain ⟨j, w⟩ := p
    simp only [List.map_cons, List.nodup_cons] at hnd
    rcases List.mem_cons.mp hmem with h | h
    · rw [Prod.mk.injEq] at h
      obtain ⟨hk, hv⟩ := h
      subst hk
      subst hv
      simp [alGet?]
    · have hjk : j ≠ k := by
        intro he
        exact hnd.1 (he ▸ (List.mem_map.mpr ⟨(k, v), h, rfl⟩))
      simp only [alGet?, if_neg hjk]
      exact ih h hnd.2

theorem alGetD_eq_of_mem_nodup {d : List (κ × ν)} {k : κ} {v : ν}
    (hmem : (k, v) ∈ d) (hnd : (d.map Prod.fst).Nodup) (dflt : ν) :
    alGetD d k dflt = v := by
  simp [alGetD, alGet?_eq_of_mem_nodup hmem hnd]

theorem alSet_eq_append_of_notMem {d : List (κ × ν)} {k : κ}
    (h : k ∉ d.map Prod.fst) (v : ν) : alSet d k v = d ++ [(k, v)] := by
  induction d with
  | nil => rfl
  | cons p d ih =>
    obtain ⟨j, w⟩ := p
    simp only [List.map_cons, List.mem_cons, not_or] at h
    have hjk : j ≠ k := fun he => h.1 he.symm
    simp only [alSet, if_neg hjk, List.cons_append]
    rw [ih h.2]

theorem keys_alSet_of_notMem {d : List (κ × ν)} {k : κ}
    (h : k ∉ d.map Prod.fst) (v : ν) :
    (alSet d k v).map Prod.fst = d.map Prod.fst ++ [k] := by
  rw [alSet_eq_append_of_notMem h v]; simp

theorem mem_keys_alSet_of_mem {d : List (κ × ν)} {k k' : κ} (v : ν)
    (h : k' ∈ d.map Prod.fst) : k' ∈ (alSet d k v).map Prod.fst := by
  induction d with
  | nil => simp at h
  | cons p d ih =>
    obtain ⟨j, w⟩ := p
    simp only [alSet]
    by_cases hjk : j = k
    · simp only [if_pos hjk]
      simp only [List.map_cons, List.mem_cons] at h ⊢
      rcases h with h | h
      · exact Or.inl (hjk ▸ h)
      · exact Or.inr h
    · simp only [if_neg hjk, List.map_cons, List.mem_cons] at h ⊢
      rcases h with h | h
      · exact Or.inl h
      · exact Or.inr (ih h)

theorem alGet?_alSet_self {d : List (κ × ν)} (k : κ) (v : ν) :
    alGet? (alSet d k v) k = some v := by
  induction d with
  | nil => simp [alSet, alGet?]
  | cons p d ih =>
    obtain ⟨j, w⟩ := p
    simp only [alSet]
    by_cases hjk : j = k
    · simp [if_pos hjk, alGet?]
    · simp only [if_neg hjk, alGet?, if_neg hjk]
      exact ih

theorem alGet?_alSet_ne {d : List (κ × ν)} {k k' : κ} (hne : k ≠ k') (v : ν) :
    alGet? (alSet d k v) k' = alGet? d k' := by
  induction d with
  | nil => simp [alSet, alGet?, fun h => hne h]
  | cons p d ih =>
    obtain ⟨j, w⟩ := p
    simp only [alSet]
    by_cases hjk : j = k
    · simp only [if_pos hjk, alGet?, if_neg hne, if_neg (hjk ▸ hne)]
    · simp only [if_neg hjk, alGet?]
      by_cases hjk' : j = k'
      · simp [if_pos hjk']
      · simp only [if_neg hjk']
        exact ih

theorem alGetD_cons_self (k : κ) (v : ν) (d : List (κ × ν)) (dflt : ν) :
    alGetD ((k, v) :: d) k dflt = v := by
  simp [alGetD, alGet?]

theorem alGetD_cons_ne {j k : κ} (hne : j ≠ k) (w : ν) (d : List (κ × ν)) (dflt : ν) :
    alGetD ((j, w) :: d) k dflt = alGetD d k dflt := by
  simp [alGetD, alGet?, hne]

/-- On a dict with unique keys, updating an existing key is a pointwise map. -/
theorem alSet_eq_map_of_nodup {d : List (κ × ν)} {k : κ}
    (hnd : (d.map Prod.fst).Nodup) (hmem : k ∈ d.map Prod.fst) (v : ν) :
    alSet d k v = d.map (fun q => if q.1 = k then (k, v) else q) := by
  induction d with
  | nil => simp at hmem
  | cons p d ih =>
    obtain ⟨j, w⟩ := p
    simp only [List.map_cons, List.nodup_cons] at hnd
    simp only [alSet, List.map_cons]
    by_cases hjk : j = k
    · subst hjk
      have hfix : d.map (fun q => if q.1 = j then (j, v) else q) = d.map id := by
        apply List.map_congr_left
        intro q hq
        have hqj : q.1 ≠ j := by
          intro he
          exact hnd.1 (he ▸ List.mem_map.mpr ⟨q, hq, rfl⟩)
        simp [hqj]
      simp [hfix]
    · simp only [if_neg hjk]
      have hmem' : k ∈ d.map Prod.fst := by
        rcases List.mem_cons.mp hmem with h | h
        · exact absurd h.symm hjk
        · exact h
      rw [ih hnd.2 hmem']

/-- The pointwise update keeps the key sequence. -/
theorem keys_map_update (d : List (κ × ν)) (k : κ) (v : ν) :
    (d.map (fun q => if q.1 = k then (k, v) else q)).map Prod.fst = d.map Prod.fst := by
  rw [List.map_map]
  apply List.map_congr_left
  intro q _
  by_cases hq : q.1 = k
  · simp [Function.comp, hq]
  · simp [Function.comp, hq]

theorem alGet?_alErase_ne {d : List (κ × ν)} {k k' : κ} (hne : k ≠ k') :
    alGet? (alErase d k) k' = alGet? d k' := by
  induction d with
  | nil => rfl
  | cons p d ih =>
    obtain ⟨j, w⟩ := p
    simp only [alErase]
    by_cases hjk : j = k
    · subst hjk
      rw [if_pos rfl, ih]
      simp [alGet?, if_neg hne]
    · simp only [if_neg hjk, alGet?]
      by_cases hjk' : j = k'
      · simp [if_pos hjk']
      · simp only [if_neg hjk']
        exact ih

theorem notMem_keys_alErase (d : List (κ × ν)) (k : κ) :
    k ∉ (alErase d k).map Prod.fst := by
  induction d with
  | nil => simp [alErase]
  | cons p d ih =>
    obtain ⟨j, w⟩ := p
    simp only [alErase]
    by_cases hjk : j = k
    · simpa [if_pos hjk] using ih
    · simp only [if_neg hjk, List.map_cons, List.mem_cons, not_or]
      exact ⟨fun he => hjk he.symm, ih⟩

theorem mem_of_mem_alErase {d : List (κ × ν)} {k : κ} {p : κ × ν}
    (h : p ∈ alErase d k) : p ∈ d ∧ p.1 ≠ k := by
  induction d with
  | nil => simp [alErase] at h
  | cons q d ih =>
    obtain ⟨j, w⟩ := q
    simp only [alErase] at h
    by_cases hjk : j = k
    · rw [if_pos hjk] at h
      exact ⟨List.mem_cons_of_mem _ (ih h).1, (ih h).2⟩
    · rw [if_neg hjk] at h
      rcases List.mem_cons.mp h with rfl | h
      · exact ⟨List.mem_cons_self _ _, hjk⟩
      · exact ⟨List.mem_cons_of_mem _ (ih h).1, (ih h).2⟩

end AListLemmas

/-! ## Stable descending sort modelling Python `sorted(..., key=key, reverse=True)`

Python's sort is stable: among elements with equal keys, the original order is
kept.  With `reverse=True` this means an element is inserted after every
already-placed element whose key is greater than or equal to its own. -/

section StableSort

variable {α : Type} {β : Type} [LinearOrder β] (key : α → β)

/-- Insert `x` after every element whose key is `≥ key x` (stability). -/
def insertDescBy (x : α) : List α → List α
  | [] => [x]
  | y :: ys => if key x ≤ key y then y :: insertDescBy x ys else x :: y :: ys

/-- Stable sort, descending by `key`: Python `sorted(l, key=key, reverse=True)`. -/
def sortDescBy (l : List α) : List α :=
  l.foldl (fun acc x => insertDescBy key x acc) []

theorem mem_insertDescBy {x a : α} : ∀ {l : List α},
    a ∈ insertDescBy key x l ↔ a = x ∨ a ∈ l
  | [] => by simp [insertDescBy]
  | y :: ys => by
    simp only [insertDescBy]
    by_cases h : key x ≤ key y
    · have ih : a ∈ insertDescBy key x ys ↔ a = x ∨ a ∈ ys := mem_insertDescBy
      simp only [if_pos h, List.mem_cons, ih]
      tauto
    · simp only [if_neg h, List.mem_cons]

theorem insertDescBy_perm (x : α) : ∀ (l : List α),
    (insertDescBy key x l).Perm (x :: l)
  | [] => List.Perm.refl _
  | y :: ys => by
    simp only [insertDescBy]
    by_cases h : key x ≤ key y
    · simp only [if_pos h]
      exact ((insertDescBy_perm x ys).cons y).trans (List.Perm.swap x y ys)
    · simp only [if_neg h]
      exact List.Perm.refl _

theorem foldl_insertDescBy_perm : ∀ (l acc : List α),
    (l.foldl (fun acc x => insertDescBy key x acc) acc).Perm (acc ++ l)
  | [], acc => by simp
  | x :: l, acc => by
    simp only [List.foldl_cons]
    refine (foldl_insertDescBy_perm l (insertDescBy key x acc)).trans ?_
    have h1 : (insertDescBy key x acc ++ l).Perm ((x :: acc) ++ l) :=
      (insertDescBy_perm key x acc).append_right l
    refine h1.trans ?_
    have h2 : (acc ++ x :: l).Perm (x :: (acc ++ l)) := List.perm_middle
    simpa using h2.symm

theorem sortDescBy_perm (l : List α) : (sortDescBy key l).Perm l := by
  simpa [sortDescBy] using foldl_insertDescBy_perm key l []

/-- Descending sortedness by `key` (non-strict). -/
def SortedDesc (l : List α) : Prop := l.Pairwise (fun a b => key b ≤ key a)

theorem sortedDesc_insertDescBy {x : α} : ∀ {l : List α},
    SortedDesc key l → SortedDesc key (insertDescBy key x l)
  | [], _ => List.pairwise_singleton _ x
  | y :: ys, h => by
    simp only [insertDescBy]
    rcases List.pairwise_cons.mp h with ⟨hy, hys⟩
    by_cases hk : key x ≤ key y
    · simp only [if_pos hk]
      refine List.pairwise_cons.mpr ⟨?_, sortedDesc_insertDescBy hys⟩
      intro a ha
      rcases (mem_insertDescBy key).mp ha with rfl | ha
      · exact hk
      · exact hy a ha
    · simp only [if_neg hk]
      refine List.pairwise_cons.mpr ⟨?_, h⟩
      intro a ha
      rcases List.mem_cons.mp ha with rfl | ha
      · exact le_of_not_le hk
      · exact le_trans (hy a ha) (le_of_not_le hk)

theorem sortedDesc_foldl : ∀ (l acc : List α), SortedDesc key acc →
    SortedDesc key (l.foldl (fun acc x => insertDescBy key x acc) acc)
  | [], _, h => h
  | x :: l, acc, h => by
    simp only [List.foldl_cons]
    exact sortedDesc_foldl l _ (sortedDesc_insertDescBy key h)

theorem sortedDesc_sortDescBy (l : List α) : SortedDesc key (sortDescBy key l) :=
  sortedDesc_foldl key l [] (List.Pairwise.nil)

theorem mem_sortDescBy {a : α} {l : List α} :
    a ∈ sortDescBy key l ↔ a ∈ l :=
  (sortDescBy_perm key l).mem_iff

end StableSort

/-! ## SHA-256 and `utils.compute_id`

`compute_id(*parts)` in `src/utils.py` feeds the UTF-8 encoding of each part
into one `hashlib.sha256` instance (equivalently: hashes the concatenation of
the encoded parts) and keeps the first 16 characters of the hex digest, i.e.
the 64 most significant bits of the 256-bit digest.  SHA-256 is implemented
here concretely (FIPS 180-4), with 32-bit words as `Nat` reduced `% 2 ^ 32`. -/

namespace Sha256

/-- Right rotation of a 32-bit word. -/
def rotr (r x : Nat) : Nat :=
  (x % 2 ^ 32) / 2 ^ r + (x % 2 ^ 32) % 2 ^ r * 2 ^ (32 - r)

/-- Logical right shift of a 32-bit word. -/
def shr (r x : Nat) : Nat := (x % 2 ^ 32) / 2 ^ r

/-- Bitwise complement within 32 bits. -/
def notw (x : Nat) : Nat := (x % 2 ^ 32) ^^^ 0xffffffff

def ch (x y z : Nat) : Nat := (x &&& y) ^^^ (notw x &&& z)

def maj (x y z : Nat) : Nat := (x &&& y) ^^^ (x &&& z) ^^^ (y &&& z)

def bsig0 (x : Nat) : Nat := rotr 2 x ^^^ rotr 13 x ^^^ rotr 22 x

def bsig1 (x : Nat) : Nat := rotr 6 x ^^^ rotr 11 x ^^^ rotr 25 x

def ssig0 (x : Nat) : Nat := rotr 7 x ^^^ rotr 18 x ^^^ shr 3 x

def ssig1 (x : Nat) : Nat := rotr 17 x ^^^ rotr 19 x ^^^ shr 10 x

/-- The 64 round constants (FIPS 180-4 §4.2.2, written in decimal). -/
def K : List Nat :=
  [1116352408, 1899447441, 3049323471, 3921009573, 961987163, 1508970993,
   2453635748, 2870763221, 3624381080, 310598401, 607225278, 1426881987,
   1925078388, 2162078206, 2614888103, 3248222580, 3835390401, 4022224774,
   264347078, 604807628, 770255983, 1249150122, 1555081692, 1996064986,
   2554220882, 2821834349, 2952996808, 3210313671, 3336571891, 3584528711,
   113926993, 338241895, 666307205, 773529912, 1294757372, 1396182291,
   1695183700, 1986661051, 2177026350, 2456956037, 2730485921, 2820302411,
   3259730800, 3345764771, 3516065817, 3600352804, 4094571909, 275423344,
   430227734, 506948616, 659060556, 883997877, 958139571, 1322822218,
   1537002063, 1747873779, 1955562222, 2024104815, 2227730452, 2361852424,
   2428436474, 2756734187, 3204031479, 3329325298]

/-- The eight working variables of the compression function. -/
structure Hash8 where
  a : Nat
  b : Nat
  c : Nat
  d : Nat
  e : Nat
  f : Nat
  g : Nat
  h : Nat

/-- Initial hash value. -/
def H0 : Hash8 :=
  ⟨0x6a09e667, 0xbb67ae85, 0x3c6ef372, 0xa54ff53a,
   0x510e527f, 0x9b05688c, 0x1f83d9ab, 0x5be0cd19⟩

/-- Big-endian 32-bit word from four bytes. -/
def word4 (l : List Nat) : Nat :=
  (l.getD 0 0 % 256) * 2 ^ 24 + (l.getD 1 0 % 256) * 2 ^ 16 +
    (l.getD 2 0 % 256) * 2 ^ 8 + l.getD 3 0 % 256

/-- The 16 words of one 64-byte block. -/
def blockWords (block : List Nat) : List Nat :=
  (List.range 16).map (fun i => word4 (block.drop (4 * i)))

/-- Extend 16 words to the 64-word message schedule. -/
def extendWords (w : List Nat) : List Nat :=
  (List.range 48).foldl
    (fun acc _ =>
      acc ++ [(ssig1 (acc.getD (acc.length - 2) 0) + acc.getD (acc.length - 7) 0 +
        ssig0 (acc.getD (acc.length - 15) 0) + acc.getD (acc.length - 16) 0) % 2 ^ 32])
    w

/-- One round of the compression function. -/
def round (st : Hash8) (w k : Nat) : Hash8 :=
  let t1 := (st.h + bsig1 st.e + ch st.e st.f st.g + k + w) % 2 ^ 32
  let t2 := (bsig0 st.a + maj st.a st.b st.c) % 2 ^ 32
  { a := (t1 + t2) % 2 ^ 32, b := st.a, c := st.b, d := st.c,
    e := (st.d + t1) % 2 ^ 32, f := st.e, g := st.f, h := st.g }

/-- Compress one 64-byte block starting from `hs`. -/
def compress (hs : Hash8) (block : List Nat) : Hash8 :=
  let ws := extendWords (blockWords block)
  (ws.zip K).foldl (fun st p => round st p.1 p.2) hs

/-- Word-wise addition mod `2 ^ 32` of two hash states. -/
def addHash (x y : Hash8) : Hash8 :=
  ⟨(x.a + y.a) % 2 ^ 32, (x.b + y.b) % 2 ^ 32, (x.c + y.c) % 2 ^ 32,
   (x.d + y.d) % 2 ^ 32, (x.e + y.e) % 2 ^ 32, (x.f + y.f) % 2 ^ 32,
   (x.g + y.g) % 2 ^ 32, (x.h + y.h) % 2 ^ 32⟩

/-- 8-byte big-endian encoding of the bit length. -/
def lenBytes (bitLen : Nat) : List Nat :=
  [bitLen / 2 ^ 56 % 256, bitLen / 2 ^ 48 % 256, bitLen / 2 ^ 40 % 256,
   bitLen / 2 ^ 32 % 256, bitLen / 2 ^ 24 % 256, bitLen / 2 ^ 16 % 256,
   bitLen / 2 ^ 8 % 256, bitLen % 256]

/-- SHA-256 padding: append `0x80`, zeros to 56 mod 64, then the bit length. -/
def pad (msg : List Nat) : List Nat :=
  msg ++ 0x80 :: List.replicate ((119 - msg.length % 64) % 64) 0 ++
    lenBytes (8 * msg.length)

/-- Split into 64-byte blocks. -/
def chunks64 (l : List Nat) : List (List Nat) :=
  if h : l = [] then []
  else
    have : (l.drop 64).length < l.length := by
      rw [List.length_drop]
      have : 0 < l.length := List.length_pos.mpr h
      omega
    l.take 64 :: chunks64 (l.drop 64)
  termination_by l.length

/-- Horner fold packing 32-bit words into one big number (big-endian). -/
def packWords (ws : List Nat) : Nat :=
  ws.foldl (fun acc w => acc * 2 ^ 32 + w % 2 ^ 32) 0

/-- The final hash state after processing all blocks of the padded message. -/
def finalState (msg : List Nat) : Hash8 :=
  (chunks64 (pad msg)).foldl (fun hs blk => addHash hs (compress hs blk)) H0

/-- The 256-bit digest as a natural number (value of the hex digest read as
a big-endian number). -/
def sha256 (msg : List Nat) : Nat :=
  packWords [(finalState msg).a, (finalState msg).b, (finalState msg).c,
    (finalState msg).d, (finalState msg).e, (finalState msg).f,
    (finalState msg).g, (finalState msg).h]

theorem packWords_lt (ws : List Nat) :
    ∀ (a n : Nat), a < 2 ^ n →
      ws.foldl (fun acc w => acc * 2 ^ 32 + w % 2 ^ 32) a < 2 ^ (n + 32 * ws.length) := by
  induction ws with
  | nil => intro a n h; simpa using h
  | cons w ws ih =>
    intro a n h
    simp only [List.foldl_cons, List.length_cons]
    have h1 : a * 2 ^ 32 + w % 2 ^ 32 < 2 ^ (n + 32) := by
      have hw : w % 2 ^ 32 < 2 ^ 32 := Nat.mod_lt _ (by norm_num)
      have ha : a + 1 ≤ 2 ^ n := h
      calc a * 2 ^ 32 + w % 2 ^ 32 < a * 2 ^ 32 + 2 ^ 32 := by omega
        _ = (a + 1) * 2 ^ 32 := by ring
        _ ≤ 2 ^ n * 2 ^ 32 := Nat.mul_le_mul_right _ ha
        _ = 2 ^ (n + 32) := by rw [pow_add]
    have := ih _ _ h1
    have harith : n + 32 + 32 * ws.length = n + 32 * (ws.length + 1) := by ring
    rwa [harith] at this

set_option maxRecDepth 4000 in
theorem packWords8_lt (h8 : Hash8) :
    packWords [h8.a, h8.b, h8.c, h8.d, h8.e, h8.f, h8.g, h8.h] < 2 ^ 256 := by
  have h := packWords_lt [h8.a, h8.b, h8.c, h8.d, h8.e, h8.f, h8.g, h8.h] 0 0
    (show (0 : Nat) < 2 ^ 0 by norm_num)
  have hexp : (0 + 32 * ([h8.a, h8.b, h8.c, h8.d, h8.e, h8.f, h8.g, h8.h]).length) = 256 := by
    simp
  rw [hexp] at h
  exact h

theorem sha256_lt (msg : List Nat) : sha256 msg < 2 ^ 256 :=
  packWords8_lt (finalState msg)

end Sha256

/-- UTF-8 bytes of a string, as Python `s.encode("utf-8")`. -/
def utf8Bytes (s : String) : List Nat := s.toUTF8.toList.map UInt8.toNat

/-- `utils.compute_id(*parts)`: first 16 hex characters of the SHA-256 hex
digest of the concatenated UTF-8 encodings, i.e. the top 64 bits of the
digest, here represented as the corresponding natural number. -/
def compute_id (parts : List String) : Nat :=
  Sha256.sha256 ((parts.map utf8Bytes).flatten) / 2 ^ 192

theorem compute_id_lt (parts : List String) : compute_id parts < 2 ^ 64 := by
  have h := Sha256.sha256_lt ((parts.map utf8Bytes).flatten)
  have hpos : 0 < 2 ^ 192 := by positivity
  rw [compute_id, Nat.div_lt_iff_lt_mul hpos]
  calc Sha256.sha256 ((parts.map utf8Bytes).flatten) < 2 ^ 256 := h
    _ = 2 ^ 64 * 2 ^ 192 := by rw [← pow_add]

/-! ## `indexer.ChunkIndex` (the PassageIndex)

Floats become `ℚ`; the external capabilities (sentence-transformer encoding,
the fitted `NearestNeighbors` structure, `BM25Okapi` scoring) are abstract
function parameters.  A chunk dict is a fixed-field structure. -/

/-- A chunk as produced by the (external) chunker: the fields `build` reads. -/
structure Chunk where
  paper_id : String
  page : Nat
  kind : String
  content : String
deriving DecidableEq

/-- An entry of `ChunkIndex.meta`: the chunk dict copied plus the derived
`id`; `score` / `rerank_score` are the keys added later by
`CorpusManager._aggregate_query` and `Reranker.rerank` (absent = `none`). -/
structure Meta where
  paper_id : String
  page : Nat
  kind : String
  content : String
  id : Nat
  score : Option ℚ
  rerank_score : Option ℚ
deriving DecidableEq

/-- The meta entry `build` creates for one chunk:
`compute_id(paper_id, str(page), type, content)` plus the copied fields. -/
def metaOfChunk (c : Chunk) : Meta :=
  { paper_id := c.paper_id, page := c.page, kind := c.kind, content := c.content,
    id := compute_id [c.paper_id, toString c.page, c.kind, c.content],
    score := none, rerank_score := none }

/-- Abstract model of the embedding model together with the fitted
`NearestNeighbors` structure: `search text n` is the list of
(row, cosine-similarity) pairs that `query_dense` computes from
`kneighbors(q, n_neighbors=n)` (similarity = 1 - distance). -/
structure DenseOracle where
  search : String → Nat → List (Nat × ℚ)

/-- Python `text.lower().split()`: lowercase, split on whitespace runs. -/
def pytokenize (t : String) : List String :=
  (t.toLower.split Char.isWhitespace).filter (fun s => s ≠ "")

/-- The mutable state of a `ChunkIndex` object. -/
structure ChunkIndexState where
  model_name : String
  index : Option DenseOracle
  embeddings : Option (List (List ℚ))
  meta : List Meta
  bm25 : Option (List String → List ℚ)

namespace ChunkIndex

/-- `ChunkIndex.__init__`: nothing is built. -/
def init (model_name : String) : ChunkIndexState :=
  { model_name := model_name, index := none, embeddings := none, meta := [], bm25 := none }

inductive BuildError | emptyFit
deriving DecidableEq

inductive QueryError | notBuilt
deriving DecidableEq

/-- `ChunkIndex.build`.  `enc` models `SentenceTransformer.encode` per text,
`fit` models `NearestNeighbors(...).fit(embeddings)`, `bm25Fit` models
`BM25Okapi(corpus).get_scores`, and `sparseAvailable` models whether
`rank_bm25` was importable.  sklearn's `fit` raises `ValueError` on an empty
sample matrix (`check_array` requires at least one sample), so building over
zero chunks fails at that line; in the source this exception propagates after
`self.meta`/`self.embeddings` were already assigned but before `self.index`
or BM25 state is set, so the object still answers queries as "not built". -/
def build (st : ChunkIndexState) (enc : String → List ℚ)
    (fit : List (List ℚ) → DenseOracle)
    (bm25Fit : List (List String) → (List String → List ℚ))
    (sparseAvailable : Bool) (chunks : List Chunk) : Except BuildError ChunkIndexState :=
  let texts := chunks.map (·.content)
  let embs := texts.map enc
  let newMeta := chunks.map metaOfChunk
  if embs.length = 0 then .error .emptyFit
  else .ok { st with
    embeddings := some embs
    meta := newMeta
    index := some (fit embs)
    bm25 := if sparseAvailable then some (bm25Fit (texts.map pytokenize)) else none }

/-- `ChunkIndex.query_dense`: raises `RuntimeError("Index not built")` when
`self.index is None or self.embeddings is None`; otherwise asks `kneighbors`
for `min(top_k, len(self.meta))` neighbours. -/
def query_dense (st : ChunkIndexState) (text : String) (top_k : Nat) :
    Except QueryError (List (Nat × ℚ)) :=
  match st.index, st.embeddings with
  | some o, some _ => .ok (o.search text (min top_k st.meta.length))
  | _, _ => .error .notBuilt

/-- `np.argsort(scores)[::-1]`: row indices by descending score.  numpy's
default quicksort leaves the order among equal scores unspecified; the model
fixes ties to ascending row index (the stable sort of `0, 1, ...` keeps the
original order among equal scores), and no theorem below depends on the
order among equal BM25 scores. -/
def argsortDesc (scores : List ℚ) : List Nat :=
  sortDescBy (fun i => scores.getD i 0) (List.range scores.length)

/-- `ChunkIndex.query_bm25`: returns `[]` when `self._bm25 is None`
(whether because the index is unbuilt or because the sparse capability is
absent) — it never raises. -/
def query_bm25 (st : ChunkIndexState) (text : String) (top_k : Nat) :
    Except QueryError (List (Nat × ℚ)) :=
  match st.bm25 with
  | none => .ok []
  | some getScores =>
    let scores := getScores (pytokenize text)
    let idxs := (argsortDesc scores).take (min top_k scores.length)
    .ok (idxs.map (fun i => (i, scores.getD i 0)))

/-- `np.max` over a score array (the source only takes it of a nonempty BM25
result; the `[]` case is unreachable there). -/
def listMax : List ℚ → ℚ
  | [] => 0
  | x :: xs => xs.foldl max x

/-- The fusion arithmetic of `ChunkIndex.retrieve` (the branch where the BM25
result is nonempty), given the dense and BM25 result lists.  `scores` is an
insertion-ordered Python dict (`alSet`/`alGetD`), and
`sorted(scores.items(), key=..., reverse=True)` is a stable descending sort,
so equal fused scores keep dict insertion order. -/
def retrieveFuse (dense bm25 : List (Nat × ℚ)) (alpha : ℚ) (top_k : Nat) :
    List (Nat × ℚ) :=
  let bmMax := listMax (bm25.map (·.2))
  let bmNorm :=
    if 0 < bmMax then bm25.foldl (fun d p => alSet d p.1 (p.2 / bmMax)) []
    else bm25.foldl (fun d p => alSet d p.1 0) []
  let s1 := dense.foldl (fun d p => alSet d p.1 (alGetD d p.1 0 + alpha * p.2)) []
  let s2 := bmNorm.foldl (fun d p => alSet d p.1 (alGetD d p.1 0 + (1 - alpha) * p.2)) s1
  (sortDescBy (fun p : Nat × ℚ => p.2) s2).take top_k

/-- `ChunkIndex.retrieve`: dense and BM25 are each queried with `top_k`; if
the BM25 result is empty the dense result is returned truncated, else the
fused ranking. -/
def retrieve (st : ChunkIndexState) (text : String) (top_k : Nat) (alpha : ℚ) :
    Except QueryError (List (Nat × ℚ)) := do
  let dense ← query_dense st text top_k
  let bm25 ← query_bm25 st text top_k
  if bm25 = [] then pure (dense.take top_k)
  else pure (retrieveFuse dense bm25 alpha top_k)

/-- `ChunkIndex.query`: `retrieve` with the default `alpha=0.6`. -/
def query (st : ChunkIndexState) (text : String) (top_k : Nat) :
    Except QueryError (List (Nat × ℚ)) :=
  retrieve st text top_k (3 / 5)

theorem retrieve_ok {st : ChunkIndexState} {text : String} {top_k : Nat}
    (alpha : ℚ) {dense bm : List (Nat × ℚ)}
    (hdense : query_dense st text top_k = .ok dense)
    (hbm : query_bm25 st text top_k = .ok bm) :
    retrieve st text top_k alpha
      = if bm = [] then .ok (dense.take top_k)
        else .ok (retrieveFuse dense bm alpha top_k) := by
  rw [retrieve, hdense, hbm]
  show (if bm = [] then pure (dense.take top_k)
      else pure (retrieveFuse dense bm alpha top_k) : Except _ _) = _
  by_cases h : bm = [] <;> simp [h, pure, Except.pure]

end ChunkIndex

/-! ## `rerank.Reranker` -/

namespace Reranker

/-- The sort key of `Reranker.rerank`:
`(x.get("rerank_score", 0.0), x.get("score", 0.0))`, compared like a Python
tuple, i.e. lexicographically. -/
def rerankKey (m : Meta) : Lex (ℚ × ℚ) :=
  toLex (m.rerank_score.getD 0, m.score.getD 0)

/-- `Reranker.rerank`.  `scorer` models `CrossEncoder.predict` on one
`[query, content]` pair.  Each candidate gets `rerank_score` attached, then
the pool is stably sorted descending by `(rerank_score, score)` and truncated
to `top_k`.  An empty pool returns `[]` before any scoring. -/
def rerank (scorer : String → String → ℚ) (query : String)
    (candidates : List Meta) (top_k : Nat) : List Meta :=
  if candidates = [] then []
  else
    let scored := candidates.map
      (fun c => { c with rerank_score := some (scorer query c.content) })
    (sortDescBy rerankKey scored).take top_k

end Reranker

/-! ## `corpus.CorpusManager` (the IndexFederation)

The registry (`self._file_map`) and the in-memory index map (`self._indices`)
are insertion-ordered dicts; filesystem reads are oracle functions and
filesystem writes are recorded as an effect log.  `content_uid` generation
mixes `time.time()`, so the generated uid is an oracle input. -/

/-- One registry value: `{"uid": ..., "pdf_path": ...}`. -/
structure FileEntry where
  uid : String
  pdf_path : String
deriving DecidableEq

/-- In-memory federation state: `self._indices` and `self._file_map`. -/
structure CorpusState where
  indices : List (String × ChunkIndexState)
  fileMap : List (String × FileEntry)

namespace CorpusManager

/-- `data/index/by_id` (the source derives the absolute prefix from
`__file__`; only the shape `IDS_DIR/uid` matters here). -/
def IDS_DIR : String := "data/index/by_id"

/-- `data/pdfs`. -/
def PDF_DIR : String := "data/pdfs"

/-- `CorpusManager._index_dir_for_uid`. -/
def index_dir_for_uid (uid : String) : String := IDS_DIR ++ "/" ++ uid

/-- An uncaught exception inside `_aggregate_query`: `idx.meta[idx_i]` with an
out-of-range row raises `IndexError` outside the `try` that guards
`idx.query`. -/
inductive AggError | metaOutOfRange
deriving DecidableEq

/-- The loop body `meta = dict(idx.meta[idx_i]); meta["score"] = float(score)`
over one index's neighbour list (an out-of-range row aborts the whole
aggregation, since the exception is raised outside the `try`). -/
def metasOf (idx : ChunkIndexState) : List (Nat × ℚ) → Except AggError (List Meta)
  | [] => .ok []
  | p :: ps =>
    match idx.meta.get? p.1 with
    | none => .error .metaOutOfRange
    | some m => do
      let rest ← metasOf idx ps
      .ok ({ m with score := some p.2 } :: rest)

/-- The candidate-gathering loop of `_aggregate_query`: each loaded index is
queried; an index whose `query` raises is skipped (`except: continue`), and
all candidate lists are concatenated in index-map order. -/
def gatherCandidates : List (String × ChunkIndexState) → String → Nat →
    Except AggError (List Meta)
  | [], _, _ => .ok []
  | (_, idx) :: rest, q, k =>
    match ChunkIndex.query idx q k with
    | .error _ => gatherCandidates rest q k
    | .ok neighbors => do
      let ms ← metasOf idx neighbors
      let tail ← gatherCandidates rest q k
      .ok (ms ++ tail)

/-- `CorpusManager._aggregate_query`.  `num_files = max(1, len(self._indices))`,
`per_file_k = max(3, math.ceil(top_k * 3 / num_files))` (Python float division
is exact on these integer ranges, modelled as exact rational division), each
index is queried with `per_file_k`, and the concatenated pool goes to the
reranker with `top_k`. -/
def aggregate_query (scorer : String → String → ℚ) (st : CorpusState)
    (query : String) (top_k : Nat) : Except AggError (List Meta) := do
  let numFiles := max 1 st.indices.length
  let perFileK := max 3 (Nat.ceil ((top_k * 3 : ℚ) / numFiles))
  let cands ← gatherCandidates st.indices query perFileK
  pure (Reranker.rerank scorer query cands top_k)

/-- Filesystem oracles read by `delete_pdf`.  `snapRemoveFails` records which
snapshot-file removals would raise; the definition of `delete_pdf` does not
consult it, which is exactly the source's behaviour: those failures are caught
and swallowed (`except Exception: pass`). -/
structure DeleteFs where
  pathExists : String → Bool
  removeFails : String → Bool
  isDir : String → Bool
  walkFiles : String → List String
  walkDirs : String → List String
  snapRemoveFails : String → Bool

/-- Filesystem effects attempted by `delete_pdf`, in order. -/
inductive FsOp
  | removeFile (p : String)
  | rmdir (p : String)
  | saveMetadata
deriving DecidableEq

/-- The result dict of `delete_pdf`. -/
structure DeleteResult where
  deleted : Bool
  reason : Option String
deriving DecidableEq

/-- `CorpusManager.delete_pdf`.  Unknown filename reports not-found.  If the
source pdf exists and `os.remove` on it raises, the call aborts with
`{"deleted": False, "reason": "Failed to remove file"}` before any state
change.  Otherwise the in-memory index for the uid is dropped, every snapshot
file and directory removal is attempted with failures swallowed, the registry
entry is popped and the registry re-persisted. -/
def delete_pdf (st : CorpusState) (filename : String) (fs : DeleteFs) :
    DeleteResult × CorpusState × List FsOp :=
  match alGet? st.fileMap filename with
  | none => ({ deleted := false, reason := some "File not found" }, st, [])
  | some entry =>
    let doRemove := !(entry.pdf_path == "") && fs.pathExists entry.pdf_path
    if doRemove && fs.removeFails entry.pdf_path then
      ({ deleted := false, reason := some "Failed to remove file" }, st, [])
    else
      let ops0 := if doRemove then [FsOp.removeFile entry.pdf_path] else []
      let idxDir := index_dir_for_uid entry.uid
      let snapOps :=
        if fs.isDir idxDir then
          (fs.walkFiles idxDir).map FsOp.removeFile ++
            (fs.walkDirs idxDir).map FsOp.rmdir ++ [FsOp.rmdir idxDir]
        else []
      ({ deleted := true, reason := none },
       { indices := alErase st.indices entry.uid,
         fileMap := alErase st.fileMap filename },
       ops0 ++ snapOps ++ [FsOp.saveMetadata])

/-- Oracles for startup and ingestion.  `load uid` models
`ChunkIndex.load(self._index_dir_for_uid(uid))` (`none` = any exception, the
`CorruptIndex` case); `build pdf_path uid` models
`self._build_index_for_pdf(pdf_path, uid)` — parsing, chunking, building and
saving — with `none` for a raised exception. -/
structure StartupOracles where
  pathExists : String → Bool
  load : String → Option ChunkIndexState
  build : String → String → Option ChunkIndexState

/-- Whether an index for a uid was loaded from its snapshot or rebuilt from
the source pdf. -/
inductive StartupEv
  | loaded (uid : String)
  | built (uid : String)
deriving DecidableEq

/-- `CorpusManager._ensure_index_for_uid`: return the cached index if present;
else try `ChunkIndex.load`, and on any exception fall back to building from
the pdf.  If the build also raises, the exception propagates (`none`) and
`self._indices` is unchanged. -/
def ensure_index_for_uid (st : CorpusState) (o : StartupOracles)
    (uid pdf_path : String) : Option CorpusState × List StartupEv :=
  match alGet? st.indices uid with
  | some _ => (some st, [])
  | none =>
    match o.load uid with
    | some ix => (some { st with indices := alSet st.indices uid ix }, [.loaded uid])
    | none =>
      match o.build pdf_path uid with
      | some ix => (some { st with indices := alSet st.indices uid ix }, [.built uid])
      | none => (none, [])

/-- The loop of `CorpusManager._load_existing_indices` over a snapshot of
`self._file_map.items()`: entries with a missing uid/path or a vanished
source file are popped from the registry; for the rest the index is ensured,
with any exception swallowed (`# Keep metadata; index will be rebuilt lazily
on demand`). -/
def load_existing_indices (o : StartupOracles) :
    CorpusState → List (String × FileEntry) → CorpusState × List StartupEv
  | st, [] => (st, [])
  | st, (fn, e) :: rest =>
    if e.uid = "" ∨ e.pdf_path = "" ∨ ¬ o.pathExists e.pdf_path then
      load_existing_indices o { st with fileMap := alErase st.fileMap fn } rest
    else
      match ensure_index_for_uid st o e.uid e.pdf_path with
      | (some st', evs) =>
        let r := load_existing_indices o st' rest
        (r.1, evs ++ r.2)
      | (none, evs) =>
        let r := load_existing_indices o st rest
        (r.1, evs ++ r.2)

/-- `CorpusManager.__init__` after `_load_metadata`: `self._indices = {}`,
`self._file_map = registry`, then `_load_existing_indices` (which ends by
re-persisting the registry). -/
def startup (registry : List (String × FileEntry)) (o : StartupOracles) :
    CorpusState × List StartupEv :=
  load_existing_indices o { indices := [], fileMap := registry } registry

/-- The code keeps a registry entry (does not prune it) iff its uid and path
are nonempty and the source file still exists. -/
def entryValid (o : StartupOracles) (e : FileEntry) : Prop :=
  e.uid ≠ "" ∧ e.pdf_path ≠ "" ∧ o.pathExists e.pdf_path = true

instance (o : StartupOracles) (e : FileEntry) : Decidable (entryValid o e) := by
  unfold entryValid
  infer_instance

/-- Uids of the entries the startup loop will try to ensure an index for. -/
def validUids (o : StartupOracles) (entries : List (String × FileEntry)) :
    List String :=
  (entries.filter (fun p => decide (entryValid o p.2))).map (fun p => p.2.uid)

theorem notMem_keys_of_alGet?_eq_none {κ ν : Type} [DecidableEq κ]
    {d : List (κ × ν)} {k : κ} (h : alGet? d k = none) : k ∉ d.map Prod.fst := by
  induction d with
  | nil => simp
  | cons p d ih =>
    obtain ⟨j, w⟩ := p
    simp only [alGet?] at h
    by_cases hjk : j = k
    · rw [if_pos hjk] at h
      exact absurd h (Option.noConfusion)
    · rw [if_neg hjk] at h
      simp only [List.map_cons, List.mem_cons, not_or]
      exact ⟨fun he => hjk he.symm, ih h⟩

/-- The condition tested by `_load_existing_indices` is the negation of
`entryValid`. -/
theorem prune_cond_iff (o : StartupOracles) (e : FileEntry) :
    (e.uid = "" ∨ e.pdf_path = "" ∨ ¬ o.pathExists e.pdf_path)
      ↔ ¬ entryValid o e := by
  unfold entryValid
  constructor
  · rintro (h | h | h) ⟨h1, h2, h3⟩
    · exact h1 h
    · exact h2 h
    · exact h h3
  · intro h
    by_contra hall
    push_neg at hall
    exact h ⟨hall.1, hall.2.1, hall.2.2⟩

/-- The startup loop never touches registry entries whose filename is not in
the processed snapshot. -/
theorem loadExisting_fileMap_untouched (o : StartupOracles) :
    ∀ (entries : List (String × FileEntry)) (st : CorpusState) (fn : String),
      fn ∉ entries.map Prod.fst →
      alGet? (load_existing_indices o st entries).1.fileMap fn = alGet? st.fileMap fn
  | [], _, _, _ => rfl
  | (fn', e) :: rest, st, fn, hfn => by
    simp only [List.map_cons, List.mem_cons, not_or] at hfn
    simp only [load_existing_indices]
    by_cases hv : e.uid = "" ∨ e.pdf_path = "" ∨ ¬ o.pathExists e.pdf_path
    · rw [if_pos hv]
      rw [loadExisting_fileMap_untouched o rest _ fn hfn.2]
      exact alGet?_alErase_ne (fun he => hfn.1 he.symm)
    · rw [if_neg hv]
      rcases hens : ensure_index_for_uid st o e.uid e.pdf_path with ⟨ost, evs⟩
      cases ost with
      | some st' =>
        simp only
        rw [loadExisting_fileMap_untouched o rest st' fn hfn.2]
        -- `ensure_index_for_uid` never changes the registry
        have hfm : st'.fileMap = st.fileMap := by
          rw [ensure_index_for_uid] at hens
          rcases h1 : alGet? st.indices e.uid with _ | ix
          · rw [h1] at hens
            rcases h2 : o.load e.uid with _ | ix
            · rw [h2] at hens
              rcases h3 : o.build e.pdf_path e.uid with _ | ix
              · rw [h3] at hens
                exact absurd (congrArg Prod.fst hens).symm (by simp)
              · rw [h3] at hens
                cases hens
                rfl
            · rw [h2] at hens
              cases hens
              rfl
          · rw [h1] at hens
            cases hens
            rfl
        rw [hfm]
      | none =>
        simp only
        exact loadExisting_fileMap_untouched o rest st fn hfn.2

/-- The startup loop only ever inserts indices for uids of valid entries. -/
theorem loadExisting_indices_untouched (o : StartupOracles) :
    ∀ (entries : List (String × FileEntry)) (st : CorpusState) (uid : String),
      uid ∉ validUids o entries →
      alGet? (load_existing_indices o st entries).1.indices uid
        = alGet? st.indices uid
  | [], _, _, _ => rfl
  | (fn', e) :: rest, st, uid, huid => by
    simp only [load_existing_indices]
    by_cases hv : e.uid = "" ∨ e.pdf_path = "" ∨ ¬ o.pathExists e.pdf_path
    · rw [if_pos hv]
      exact loadExisting_indices_untouched o rest _ uid (by
        intro hmem
        apply huid
        simp only [validUids, List.filter_cons] at *
        rw [decide_eq_false ((prune_cond_iff o e).mp hv)]
        simpa using hmem)
    · rw [if_neg hv]
      have hvalid : entryValid o e := by
        by_contra hne
        exact hv ((prune_cond_iff o e).mpr hne)
      have hrest : uid ∉ validUids o rest := by
        intro hmem
        apply huid
        simp only [validUids, List.filter_cons, decide_eq_true hvalid]
        simpa [validUids] using Or.inr (by simpa [validUids] using hmem)
      have hne_uid : e.uid ≠ uid := by
        intro he
        apply huid
        simp [validUids, List.filter_cons, decide_eq_true hvalid, he]
      rcases hens : ensure_index_for_uid st o e.uid e.pdf_path with ⟨ost, evs⟩
      cases ost with
      | some st' =>
        simp only
        rw [loadExisting_indices_untouched o rest st' uid hrest]
        -- the ensure step only sets the key `e.uid`
        rw [ensure_index_for_uid] at hens
        rcases h1 : alGet? st.indices e.uid with _ | ix
        · rw [h1] at hens
          rcases h2 : o.load e.uid with _ | ix
          · rw [h2] at hens
            rcases h3 : o.build e.pdf_path e.uid with _ | ix
            · rw [h3] at hens
              exact absurd (congrArg Prod.fst hens).symm (by simp)
            · rw [h3] at hens
              cases hens
              exact alGet?_alSet_ne hne_uid ix
          · rw [h2] at hens
            cases hens
            exact alGet?_alSet_ne hne_uid ix
        · rw [h1] at hens
          cases hens
          rfl
      | none =>
        simp only
        exact loadExisting_indices_untouched o rest st uid hrest

/-- Every `built` event of the startup loop names the uid of a valid entry. -/
theorem loadExisting_built_events (o : StartupOracles) :
    ∀ (entries : List (String × FileEntry)) (st : CorpusState) (uid : String),
      StartupEv.built uid ∈ (load_existing_indices o st entries).2 →
      uid ∈ validUids o entries
  | [], _, _, h => by simp [load_existing_indices] at h
  | (fn', e) :: rest, st, uid, h => by
    simp only [load_existing_indices] at h
    by_cases hv : e.uid = "" ∨ e.pdf_path = "" ∨ ¬ o.pathExists e.pdf_path
    · rw [if_pos hv] at h
      have := loadExisting_built_events o rest _ uid h
      simp only [validUids, List.filter_cons,
        decide_eq_false ((prune_cond_iff o e).mp hv)] at *
      simpa using this
    · rw [if_neg hv] at h
      have hvalid : entryValid o e := by
        by_contra hne
        exact hv ((prune_cond_iff o e).mpr hne)
      have hstep : ∀ (st₂ : CorpusState) (evs : List StartupEv),
          (∀ u', StartupEv.built u' ∈ evs → u' = e.uid) →
          StartupEv.built uid ∈ evs ++ (load_existing_indices o st₂ rest).2 →
          uid ∈ validUids o ((fn', e) :: rest) := by
        intro st₂ evs hevs hmem
        simp only [validUids, List.filter_cons, decide_eq_true hvalid, List.map_cons]
        rcases List.mem_append.mp hmem with hl | hr
        · exact (hevs uid hl) ▸ List.mem_cons_self _ _
        · exact List.mem_cons_of_mem _
            (by simpa [validUids] using loadExisting_built_events o rest st₂ uid hr)
      rcases hens : ensure_index_for_uid st o e.uid e.pdf_path with ⟨ost, evs⟩
      have hevs : ∀ u', StartupEv.built u' ∈ evs → u' = e.uid := by
        rw [ensure_index_for_uid] at hens
        rcases h1 : alGet? st.indices e.uid with _ | ix
        · rw [h1] at hens
          rcases h2 : o.load e.uid with _ | ix
          · rw [h2] at hens
            rcases h3 : o.build e.pdf_path e.uid with _ | ix
            · rw [h3] at hens
              cases hens
              intro u' hu'
              simp at hu'
            · rw [h3] at hens
              cases hens
              intro u' hu'
              simp at hu'
              exact hu'.symm ▸ rfl
          · rw [h2] at hens
            cases hens
            intro u' hu'
            simp at hu'
        · rw [h1] at hens
          cases hens
          intro u' hu'
          simp at hu'
      rw [hens] at h
      cases ost with
      | some st' =>
        exact hstep st' evs hevs h
      | none =>
        exact hstep st evs hevs h

theorem ensure_fresh_load {st : CorpusState} {o : StartupOracles}
    {uid : String} (path : String) {ix : ChunkIndexState}
    (hfresh : alGet? st.indices uid = none) (hload : o.load uid = some ix) :
    ensure_index_for_uid st o uid path
      = (some { st with indices := alSet st.indices uid ix }, [.loaded uid]) := by
  rw [ensure_index_for_uid, hfresh, hload]

theorem ensure_fresh_build {st : CorpusState} {o : StartupOracles}
    {uid path : String} {ix : ChunkIndexState}
    (hfresh : alGet? st.indices uid = none) (hload : o.load uid = none)
    (hbuild : o.build path uid = some ix) :
    ensure_index_for_uid st o uid path
      = (some { st with indices := alSet st.indices uid ix }, [.built uid]) := by
  rw [ensure_index_for_uid, hfresh, hload, hbuild]

theorem ensure_fresh_fail {st : CorpusState} {o : StartupOracles}
    {uid path : String}
    (hfresh : alGet? st.indices uid = none) (hload : o.load uid = none)
    (hbuild : o.build path uid = none) :
    ensure_index_for_uid st o uid path = (none, []) := by
  rw [ensure_index_for_uid, hfresh, hload, hbuild]

/-- What the amended claim C6 asserts of one registry entry after startup:
invalid entries are pruned; valid entries stay in the registry; a loadable
snapshot is loaded (never rebuilt); a snapshot that fails to load is rebuilt
eagerly from the source pdf; only if that rebuild also fails is the entry
left unbuilt. -/
def EntryOutcome (o : StartupOracles) (res : CorpusState × List StartupEv)
    (p : String × FileEntry) : Prop :=
  (¬ entryValid o p.2 → p.1 ∉ res.1.fileMap.map Prod.fst) ∧
  (entryValid o p.2 →
    alGet? res.1.fileMap p.1 = some p.2 ∧
    (∀ ix, o.load p.2.uid = some ix →
      alGet? res.1.indices p.2.uid = some ix ∧
      StartupEv.built p.2.uid ∉ res.2) ∧
    (∀ ix, o.load p.2.uid = none → o.build p.2.pdf_path p.2.uid = some ix →
      alGet? res.1.indices p.2.uid = some ix ∧
      StartupEv.built p.2.uid ∈ res.2) ∧
    (o.load p.2.uid = none → o.build p.2.pdf_path p.2.uid = none →
      p.2.uid ∉ res.1.indices.map Prod.fst))

theorem EntryOutcome.prepend {o : StartupOracles}
    {res : CorpusState × List StartupEv} {p : String × FileEntry}
    (h : EntryOutcome o res p) (evs₀ : List StartupEv)
    (hev : entryValid o p.2 → StartupEv.built p.2.uid ∉ evs₀) :
    EntryOutcome o (res.1, evs₀ ++ res.2) p := by
  obtain ⟨h1, h2⟩ := h
  refine ⟨h1, fun hvalid => ?_⟩
  obtain ⟨a, b, c, d⟩ := h2 hvalid
  refine ⟨a, fun ix hix => ⟨(b ix hix).1, ?_⟩,
    fun ix h1' h2' => ⟨(c ix h1' h2').1, List.mem_append.mpr (Or.inr (c ix h1' h2').2)⟩,
    d⟩
  simp only [List.mem_append, not_or]
  exact ⟨hev hvalid, (b ix hix).2⟩

/-- Per-entry characterization of `_load_existing_indices` on a registry with
unique filenames and unique uids among kept entries, starting from a state
whose in-memory index map holds none of those uids (at construction it is
empty). -/
theorem loadExisting_per_entry (o : StartupOracles) :
    ∀ (entries : List (String × FileEntry)) (st : CorpusState),
      (entries.map Prod.fst).Nodup →
      (validUids o entries).Nodup →
      (∀ u ∈ validUids o entries, u ∉ st.indices.map Prod.fst) →
      (∀ p ∈ entries, alGet? st.fileMap p.1 = some p.2) →
      ∀ p ∈ entries, EntryOutcome o (load_existing_indices o st entries) p
  | [], _, _, _, _, _ => by
    intro p hp
    simp at hp
  | (fn, e) :: rest, st, hnd, hvu, hfresh, hfm => by
    intro p hp
    simp only [List.map_cons, List.nodup_cons] at hnd
    by_cases hv : e.uid = "" ∨ e.pdf_path = "" ∨ ¬ o.pathExists e.pdf_path
    · -- the head entry is pruned
      have hnotvalid : ¬ entryValid o e := (prune_cond_iff o e).mp hv
      have hvu' : validUids o ((fn, e) :: rest) = validUids o rest := by
        simp [validUids, List.filter_cons, decide_eq_false hnotvalid]
      have heq : load_existing_indices o st ((fn, e) :: rest)
          = load_existing_indices o { st with fileMap := alErase st.fileMap fn } rest := by
        rw [load_existing_indices, if_pos hv]
      have hfm' : ∀ q ∈ rest,
          alGet? (alErase st.fileMap fn) q.1 = some q.2 := by
        intro q hq
        have hne : fn ≠ q.1 :=
          fun heqk => hnd.1 (List.mem_map.mpr ⟨q, hq, heqk.symm⟩)
        rw [alGet?_alErase_ne hne]
        exact hfm q (List.mem_cons_of_mem _ hq)
      rcases List.mem_cons.mp hp with rfl | hp'
      · refine ⟨fun _ => ?_, fun hvalid => absurd hvalid hnotvalid⟩
        apply notMem_keys_of_alGet?_eq_none
        rw [heq, loadExisting_fileMap_untouched o rest _ fn hnd.1]
        show alGet? (alErase st.fileMap fn) fn = none
        exact alGet?_eq_none_of_notMem (notMem_keys_alErase st.fileMap fn)
      · rw [heq]
        exact loadExisting_per_entry o rest
          { st with fileMap := alErase st.fileMap fn } hnd.2 (hvu' ▸ hvu)
          (fun u hu => hfresh u (hvu' ▸ hu)) hfm' p hp'
    · -- the head entry is kept
      have hvalid : entryValid o e := by
        by_contra hne
        exact hv ((prune_cond_iff o e).mpr hne)
      have hvu' : validUids o ((fn, e) :: rest) = e.uid :: validUids o rest := by
        simp [validUids, List.filter_cons, decide_eq_true hvalid]
      rw [hvu'] at hvu hfresh
      obtain ⟨hvu1, hvu2⟩ := List.nodup_cons.mp hvu
      have hfresh_head : alGet? st.indices e.uid = none :=
        alGet?_eq_none_of_notMem (hfresh e.uid (List.mem_cons_self _ _))
      have hfr : e.uid ∉ st.indices.map Prod.fst :=
        hfresh e.uid (List.mem_cons_self _ _)
      have hfresh_rest0 : ∀ u ∈ validUids o rest, u ∉ st.indices.map Prod.fst :=
        fun u hu => hfresh u (List.mem_cons_of_mem _ hu)
      have hfm_rest : ∀ q ∈ rest, alGet? st.fileMap q.1 = some q.2 :=
        fun q hq => hfm q (List.mem_cons_of_mem _ hq)
      have hne_rest : ∀ u ∈ validUids o rest, u ≠ e.uid :=
        fun u hu heqk => hvu1 (heqk ▸ hu)
      have huid_rest : ∀ q ∈ rest, entryValid o q.2 → q.2.uid ≠ e.uid := by
        intro q hq hqv
        refine hne_rest q.2.uid ?_
        simp only [validUids, List.mem_map]
        exact ⟨q, List.mem_filter.mpr ⟨hq, decide_eq_true hqv⟩, rfl⟩
      rcases hload : o.load e.uid with _ | ix
      · rcases hbuild : o.build e.pdf_path e.uid with _ | ix
        · -- snapshot load and rebuild both fail: entry kept, left unbuilt
          have heqA : (load_existing_indices o st ((fn, e) :: rest)).1
              = (load_existing_indices o st rest).1 := by
            rw [load_existing_indices, if_neg hv,
              ensure_fresh_fail hfresh_head hload hbuild]
          have heqB : (load_existing_indices o st ((fn, e) :: rest)).2
              = (load_existing_indices o st rest).2 := by
            rw [load_existing_indices, if_neg hv,
              ensure_fresh_fail hfresh_head hload hbuild]
            show [] ++ _ = _
            rw [List.nil_append]
          rcases List.mem_cons.mp hp with rfl | hp'
          · refine ⟨fun hnv => absurd hvalid hnv, fun _ => ⟨?_, ?_, ?_, ?_⟩⟩
            · rw [heqA, loadExisting_fileMap_untouched o rest _ fn hnd.1]
              exact hfm (fn, e) (List.mem_cons_self _ _)
            · intro ix hix
              rw [hload] at hix
              exact absurd hix (fun h => Option.noConfusion h)
            · intro ix _ hbix
              rw [hbuild] at hbix
              exact absurd hbix (fun h => Option.noConfusion h)
            · intro _ _
              apply notMem_keys_of_alGet?_eq_none
              rw [heqA, loadExisting_indices_untouched o rest st _ hvu1]
              exact hfresh_head
          · have IH := loadExisting_per_entry o rest st hnd.2 hvu2 hfresh_rest0
              hfm_rest p hp'
            exact ⟨fun hnv => heqA ▸ (IH.1 hnv), fun hval => by
              have h2 := IH.2 hval
              rw [heqA, heqB]
              exact h2⟩
        · -- load fails, eager rebuild succeeds
          have hens := ensure_fresh_build hfresh_head hload hbuild
          have heqA : (load_existing_indices o st ((fn, e) :: rest)).1
              = (load_existing_indices o
                  { st with indices := alSet st.indices e.uid ix } rest).1 := by
            rw [load_existing_indices, if_neg hv, hens]
          have heqB : (load_existing_indices o st ((fn, e) :: rest)).2
              = [StartupEv.built e.uid]
                ++ (load_existing_indices o
                  { st with indices := alSet st.indices e.uid ix } rest).2 := by
            rw [load_existing_indices, if_neg hv, hens]
          have hkeys' : ∀ u ∈ validUids o rest,
              u ∉ ({ st with indices := alSet st.indices e.uid ix } :
                CorpusState).indices.map Prod.fst := by
            intro u hu hmem
            have hmem2 : u ∈ st.indices.map Prod.fst ++ [e.uid] := by
              rw [← keys_alSet_of_notMem hfr]
              exact hmem
            rcases List.mem_append.mp hmem2 with h | h
            · exact hfresh_rest0 u hu h
            · exact hne_rest u hu (List.mem_singleton.mp h)
          rcases List.mem_cons.mp hp with rfl | hp'
          · refine ⟨fun hnv => absurd hvalid hnv, fun _ => ⟨?_, ?_, ?_, ?_⟩⟩
            · rw [heqA, loadExisting_fileMap_untouched o rest _ fn hnd.1]
              exact hfm (fn, e) (List.mem_cons_self _ _)
            · intro ix' hix
              rw [hload] at hix
              exact absurd hix (fun h => Option.noConfusion h)
            · intro ix' _ hbix
              rw [hbuild] at hbix
              refine ⟨?_, ?_⟩
              · rw [heqA, loadExisting_indices_untouched o rest _ _ hvu1]
                show alGet? (alSet st.indices e.uid ix) e.uid = some ix'
                rw [alGet?_alSet_self]
                exact congrArg some (Option.some.inj hbix)
              · rw [heqB]
                exact List.mem_append.mpr (Or.inl (List.mem_singleton.mpr rfl))
            · intro _ hbnone
              rw [hbuild] at hbnone
              exact absurd hbnone (fun h => Option.noConfusion h)
          · have IH := loadExisting_per_entry o rest
              { st with indices := alSet st.indices e.uid ix } hnd.2 hvu2 hkeys'
              hfm_rest p hp'
            have hpre := IH.prepend [StartupEv.built e.uid] (by
              intro hval
              simp only [List.mem_singleton, StartupEv.built.injEq]
              exact huid_rest p hp' hval)
            exact ⟨fun hnv => heqA ▸ (hpre.1 hnv), fun hval => by
              have h2 := hpre.2 hval
              rw [heqA, heqB]
              exact h2⟩
      · -- snapshot loads: cached as-is, never rebuilt
        have hens := ensure_fresh_load e.pdf_path hfresh_head hload
        have heqA : (load_existing_indices o st ((fn, e) :: rest)).1
            = (load_existing_indices o
                { st with indices := alSet st.indices e.uid ix } rest).1 := by
          rw [load_existing_indices, if_neg hv, hens]
        have heqB : (load_existing_indices o st ((fn, e) :: rest)).2
            = [StartupEv.loaded e.uid]
              ++ (load_existing_indices o
                { st with indices := alSet st.indices e.uid ix } rest).2 := by
          rw [load_existing_indices, if_neg hv, hens]
        have hkeys' : ∀ u ∈ validUids o rest,
            u ∉ ({ st with indices := alSet st.indices e.uid ix } :
              CorpusState).indices.map Prod.fst := by
          intro u hu hmem
          have hmem2 : u ∈ st.indices.map Prod.fst ++ [e.uid] := by
            rw [← keys_alSet_of_notMem hfr]
            exact hmem
          rcases List.mem_append.mp hmem2 with h | h
          · exact hfresh_rest0 u hu h
          · exact hne_rest u hu (List.mem_singleton.mp h)
        rcases List.mem_cons.mp hp with rfl | hp'
        · refine ⟨fun hnv => absurd hvalid hnv, fun _ => ⟨?_, ?_, ?_, ?_⟩⟩
          · rw [heqA, loadExisting_fileMap_untouched o rest _ fn hnd.1]
            exact hfm (fn, e) (List.mem_cons_self _ _)
          · intro ix' hix
            rw [hload] at hix
            refine ⟨?_, ?_⟩
            · rw [heqA, loadExisting_indices_untouched o rest _ _ hvu1]
              show alGet? (alSet st.indices e.uid ix) e.uid = some ix'
              rw [alGet?_alSet_self]
              exact congrArg some (Option.some.inj hix)
            · rw [heqB]
              simp only [List.mem_append, List.mem_singleton, not_or]
              refine ⟨fun h => StartupEv.noConfusion h, fun hmem => ?_⟩
              exact hvu1 (loadExisting_built_events o rest _ _ hmem)
          · intro ix' hlnone _
            rw [hload] at hlnone
            exact absurd hlnone (fun h => Option.noConfusion h)
          · intro hlnone _
            rw [hload] at hlnone
            exact absurd hlnone (fun h => Option.noConfusion h)
        · have IH := loadExisting_per_entry o rest
            { st with indices := alSet st.indices e.uid ix } hnd.2 hvu2 hkeys'
            hfm_rest p hp'
          have hpre := IH.prepend [StartupEv.loaded e.uid] (by
            intro _
            simp only [List.mem_singleton]
            exact fun h => StartupEv.noConfusion h)
          exact ⟨fun hnv => heqA ▸ (hpre.1 hnv), fun hval => by
            have h2 := hpre.2 hval
            rw [heqA, heqB]
            exact h2⟩

/-- `os.path.basename` on a POSIX path: the characters after the last `/`. -/
def basename (p : String) : String :=
  ⟨p.data.foldl (fun acc c => if c = '/' then [] else acc ++ [c]) []⟩

/-- Python `s.lower()` (ASCII suffices for the `.pdf` check). -/
def pyLower (s : String) : String := ⟨s.data.map Char.toLower⟩

/-- Python `s.endswith(t)`. -/
def pyEndsWith (s t : String) : Bool := t.data.isSuffixOf s.data

/-- Result of processing one file in `add_pdfs`. -/
structure AddOutcome where
  state : CorpusState
  exnRaised : Bool
  added : Bool
  events : List StartupEv

/-- One iteration of the `add_pdfs` loop: skip non-files and non-pdfs;
otherwise copy into `PDF_DIR`, generate a fresh uid (oracle input `uid` —
the source mixes `time.time()` into it), overwrite the registry entry for the
basename, and ensure an index for the new uid.  An exception from the ensure
step propagates out of `add_pdfs` with the registry entry already
overwritten in memory. -/
def add_pdf_one (st : CorpusState) (o : StartupOracles) (isFile : String → Bool)
    (src uid : String) : AddOutcome :=
  if ¬ (isFile src ∧ pyEndsWith (pyLower src) ".pdf") then
    { state := st, exnRaised := false, added := false, events := [] }
  else
    let filename := basename src
    let dst := PDF_DIR ++ "/" ++ filename
    let st1 := { st with fileMap := alSet st.fileMap filename ⟨uid, dst⟩ }
    match ensure_index_for_uid st1 o uid dst with
    | (some st2, evs) => { state := st2, exnRaised := false, added := true, events := evs }
    | (none, evs) => { state := st1, exnRaised := true, added := false, events := evs }

theorem ensure_some_fileMap {st : CorpusState} {o : StartupOracles}
    {uid path : String} {st' : CorpusState} {evs : List StartupEv}
    (h : ensure_index_for_uid st o uid path = (some st', evs)) :
    st'.fileMap = st.fileMap := by
  rw [ensure_index_for_uid] at h
  rcases h1 : alGet? st.indices uid with _ | ix
  · rw [h1] at h
    rcases h2 : o.load uid with _ | ix
    · rw [h2] at h
      rcases h3 : o.build path uid with _ | ix
      · rw [h3] at h
        exact absurd (congrArg Prod.fst h).symm (by simp)
      · rw [h3] at h
        cases h
        rfl
    · rw [h2] at h
      cases h
      rfl
  · rw [h1] at h
    cases h
    rfl

theorem ensure_some_keeps_key {st : CorpusState} {o : StartupOracles}
    {uid path : String} {st' : CorpusState} {evs : List StartupEv}
    (h : ensure_index_for_uid st o uid path = (some st', evs)) :
    ∀ u ∈ st.indices.map Prod.fst, u ∈ st'.indices.map Prod.fst := by
  intro u hu
  rw [ensure_index_for_uid] at h
  rcases h1 : alGet? st.indices uid with _ | ix
  · rw [h1] at h
    rcases h2 : o.load uid with _ | ix
    · rw [h2] at h
      rcases h3 : o.build path uid with _ | ix
      · rw [h3] at h
        exact absurd (congrArg Prod.fst h).symm (by simp)
      · rw [h3] at h
        cases h
        exact mem_keys_alSet_of_mem ix hu
    · rw [h2] at h
      cases h
      exact mem_keys_alSet_of_mem ix hu
  · rw [h1] at h
    cases h
    exact hu

theorem bind_eq_ok {ε α β : Type} {x : Except ε α} {f : α → Except ε β} {b : β}
    (h : Except.bind x f = .ok b) : ∃ a, x = .ok a ∧ f a = .ok b := by
  cases x with
  | error e => exact absurd h (fun h => Except.noConfusion h)
  | ok a => exact ⟨a, rfl, h⟩

theorem metasOf_mem {idx : ChunkIndexState} :
    ∀ {ns : List (Nat × ℚ)} {ms : List Meta}, metasOf idx ns = .ok ms →
      ∀ m ∈ ms, ∃ m₀ ∈ idx.meta, ∃ s : ℚ, m = { m₀ with score := some s }
  | [], ms, h => by
    cases h
    intro m hm
    simp at hm
  | p :: ps, ms, h => by
    intro m hm
    rw [metasOf] at h
    rcases hget : idx.meta.get? p.1 with _ | m₀
    · rw [hget] at h
      exact absurd h (fun h => Except.noConfusion h)
    · rw [hget] at h
      have h' : Except.bind (metasOf idx ps) (fun rest =>
          Except.ok ({ m₀ with score := some p.2 } :: rest)) = Except.ok ms := h
      obtain ⟨rest, hrest, h2⟩ := bind_eq_ok h'
      have hms : ms = { m₀ with score := some p.2 } :: rest := (Except.ok.inj h2).symm
      subst hms
      rcases List.mem_cons.mp hm with rfl | hm'
      · exact ⟨m₀, List.get?_mem hget, p.2, rfl⟩
      · exact metasOf_mem hrest m hm'

theorem gatherCandidates_mem :
    ∀ {indices : List (String × ChunkIndexState)} {q : String} {k : Nat}
      {cs : List Meta}, gatherCandidates indices q k = .ok cs →
      ∀ m ∈ cs, ∃ uid idx, (uid, idx) ∈ indices ∧
        ∃ m₀ ∈ idx.meta, ∃ s : ℚ, m = { m₀ with score := some s }
  | [], _, _, cs, h => by
    cases h
    intro m hm
    simp at hm
  | (uid₀, idx₀) :: rest, q, k, cs, h => by
    intro m hm
    rw [gatherCandidates] at h
    rcases hq : ChunkIndex.query idx₀ q k with e | ns
    · rw [hq] at h
      obtain ⟨u, ix, hmem, hrest⟩ := gatherCandidates_mem h m hm
      exact ⟨u, ix, List.mem_cons_of_mem _ hmem, hrest⟩
    · rw [hq] at h
      have h' : Except.bind (metasOf idx₀ ns) (fun ms =>
          Except.bind (gatherCandidates rest q k) (fun tail =>
            Except.ok (ms ++ tail))) = Except.ok cs := h
      obtain ⟨ms, hms, h2⟩ := bind_eq_ok h'
      obtain ⟨tail, htail, h3⟩ := bind_eq_ok h2
      have hcs : cs = ms ++ tail := (Except.ok.inj h3).symm
      subst hcs
      rcases List.mem_append.mp hm with hl | hr
      · obtain ⟨m₀, hm₀, s, hs⟩ := metasOf_mem hms m hl
        exact ⟨uid₀, idx₀, List.mem_cons_self _ _, m₀, hm₀, s, hs⟩
      · obtain ⟨u, ix, hmem, hrest'⟩ := gatherCandidates_mem htail m hr
        exact ⟨u, ix, List.mem_cons_of_mem _ hmem, hrest'⟩

theorem gatherCandidates_includes :
    ∀ {indices : List (String × ChunkIndexState)} {q : String} {k : Nat}
      {uid : String} {idx : ChunkIndexState} {ns : List (Nat × ℚ)}
      {ms cs : List Meta},
      (uid, idx) ∈ indices →
      ChunkIndex.query idx q k = .ok ns →
      metasOf idx ns = .ok ms →
      gatherCandidates indices q k = .ok cs →
      ∀ m ∈ ms, m ∈ cs
  | [], _, _, _, _, _, _, _, hmem, _, _, _ => by simp at hmem
  | (uid₀, idx₀) :: rest, q, k, uid, idx, ns, ms, cs, hmem, hq, hms, hg => by
    intro m hm
    rw [gatherCandidates] at hg
    rcases List.mem_cons.mp hmem with heq | hmem'
    · rw [Prod.mk.injEq] at heq
      obtain ⟨h1, h2⟩ := heq
      subst h1
      subst h2
      rw [hq] at hg
      have h' : Except.bind (metasOf idx ns) (fun ms =>
          Except.bind (gatherCandidates rest q k) (fun tail =>
            Except.ok (ms ++ tail))) = Except.ok cs := hg
      obtain ⟨ms', hms', h2⟩ := bind_eq_ok h'
      obtain ⟨tail, htail, h3⟩ := bind_eq_ok h2
      have hcs : cs = ms' ++ tail := (Except.ok.inj h3).symm
      subst hcs
      have hmseq : ms' = ms := by
        rw [hms] at hms'
        exact (Except.ok.inj hms').symm
      subst hmseq
      exact List.mem_append.mpr (Or.inl hm)
    · rcases hq₀ : ChunkIndex.query idx₀ q k with e | ns₀
      · rw [hq₀] at hg
        exact gatherCandidates_includes hmem' hq hms hg m hm
      · rw [hq₀] at hg
        have h' : Except.bind (metasOf idx₀ ns₀) (fun ms₀ =>
            Except.bind (gatherCandidates rest q k) (fun tail =>
              Except.ok (ms₀ ++ tail))) = Except.ok cs := hg
        obtain ⟨ms₀, hms₀, h2⟩ := bind_eq_ok h'
        obtain ⟨tail, htail, h3⟩ := bind_eq_ok h2
        have hcs : cs = ms₀ ++ tail := (Except.ok.inj h3).symm
        subst hcs
        exact List.mem_append.mpr
          (Or.inr (gatherCandidates_includes hmem' hq hms htail m hm))

theorem aggregate_query_inv {scorer : String → String → ℚ} {st : CorpusState}
    {q : String} {top_k : Nat} {res : List Meta}
    (h : aggregate_query scorer st q top_k = .ok res) :
    ∃ cands, gatherCandidates st.indices q
        (max 3 (Nat.ceil ((top_k * 3 : ℚ) / (max 1 st.indices.length)))) = .ok cands ∧
      res = Reranker.rerank scorer q cands top_k := by
  have h' : Except.bind (gatherCandidates st.indices q
      (max 3 (Nat.ceil ((top_k * 3 : ℚ) / (max 1 st.indices.length)))))
      (fun cands => Except.ok (Reranker.rerank scorer q cands top_k))
      = Except.ok res := h
  obtain ⟨cands, hg, h2⟩ := bind_eq_ok h'
  exact ⟨cands, hg, (Except.ok.inj h2).symm⟩

theorem delete_pdf_success_state {st : CorpusState} {filename : String}
    {fs : DeleteFs} {entry : FileEntry}
    (hentry : alGet? st.fileMap filename = some entry)
    (hok : ¬ (entry.pdf_path ≠ "" ∧ fs.pathExists entry.pdf_path = true ∧
      fs.removeFails entry.pdf_path = true)) :
    (delete_pdf st filename fs).1 = { deleted := true, reason := none } ∧
    (delete_pdf st filename fs).2.1
      = { indices := alErase st.indices entry.uid,
          fileMap := alErase st.fileMap filename } := by
  have hcond : ((!(entry.pdf_path == "") && fs.pathExists entry.pdf_path) &&
        fs.removeFails entry.pdf_path) = true
      ↔ (entry.pdf_path ≠ "" ∧ fs.pathExists entry.pdf_path = true ∧
        fs.removeFails entry.pdf_path = true) := by
    simp [Bool.and_eq_true, and_assoc]
  constructor <;>
    · simp only [delete_pdf, hentry]
      rw [if_neg (fun hb => hok (hcond.mp hb))]

/-- Members of a dict after `d[k] = v` on a unique-key dict. -/
theorem mem_alSet_nodup {κ ν : Type} [DecidableEq κ] :
    ∀ {d : List (κ × ν)} {k : κ} {v : ν} {p : κ × ν},
      (d.map Prod.fst).Nodup → p ∈ alSet d k v → p = (k, v) ∨ (p ∈ d ∧ p.1 ≠ k)
  | [], k, v, p, _, hp => by
    simp only [alSet, List.mem_singleton] at hp
    exact Or.inl hp
  | (j, w) :: d, k, v, p, hnd, hp => by
    simp only [List.map_cons, List.nodup_cons] at hnd
    simp only [alSet] at hp
    by_cases hjk : j = k
    · rw [if_pos hjk] at hp
      rcases List.mem_cons.mp hp with rfl | hp'
      · exact Or.inl rfl
      · refine Or.inr ⟨List.mem_cons_of_mem _ hp', ?_⟩
        intro hpk
        exact hnd.1 (hjk ▸ hpk ▸ List.mem_map.mpr ⟨p, hp', rfl⟩)
    · rw [if_neg hjk] at hp
      rcases List.mem_cons.mp hp with rfl | hp'
      · exact Or.inr ⟨List.mem_cons_self _ _, hjk⟩
      · rcases mem_alSet_nodup hnd.2 hp' with h | ⟨h1, h2⟩
        · exact Or.inl h
        · exact Or.inr ⟨List.mem_cons_of_mem _ h1, h2⟩

end CorpusManager

/-- Every element of the reranker's output is an input candidate with its
`rerank_score` attached. -/
theorem Reranker.rerank_mem {scorer : String → String → ℚ} {q : String}
    {cands : List Meta} {top_k : Nat} {m : Meta}
    (hm : m ∈ Reranker.rerank scorer q cands top_k) :
    ∃ c ∈ cands, m = { c with rerank_score := some (scorer q c.content) } := by
  by_cases hc : cands = []
  · subst hc
    simp [Reranker.rerank] at hm
  · rw [Reranker.rerank, if_neg hc] at hm
    have hm2 := List.mem_of_mem_take hm
    have hm3 := (mem_sortDescBy Reranker.rerankKey).mp hm2
    obtain ⟨c, hcmem, hceq⟩ := List.mem_map.mp hm3
    exact ⟨c, hcmem, hceq.symm⟩

/-! ## Spec-side fusion ranking (for claim C1)

`fusedList` writes down the fused score table in the spec's terms: normalized
sparse scores, the union of retrieved rows, `alpha * dense + (1-alpha) *
normalized_sparse` with absent contributions 0.  `claimFusedRank` orders it
the way the claim states (ties by row index ascending); `specFusedRank`
orders it the way the code does (stable sort: ties keep first-appearance
order — dense rows first, then sparse-only rows). -/

namespace FusionSpec

open ChunkIndex

/-- Rows in first-appearance order with their fused scores, as the spec
describes them. -/
def fusedList (dense bm25 : List (Nat × ℚ)) (alpha : ℚ) : List (Nat × ℚ) :=
  let bmMax := listMax (bm25.map (·.2))
  let norm := bm25.map (fun p => (p.1, if bmMax = 0 then 0 else p.2 / bmMax))
  let keys := dense.map (·.1) ++ (bm25.map (·.1)).filter (fun i => i ∉ dense.map (·.1))
  keys.map (fun i => (i, alpha * alGetD dense i 0 + (1 - alpha) * alGetD norm i 0))

/-- Insertion step of an ascending sort by row index. -/
def insertAscFst (x : Nat × ℚ) : List (Nat × ℚ) → List (Nat × ℚ)
  | [] => [x]
  | y :: ys => if y.1 ≤ x.1 then y :: insertAscFst x ys else x :: y :: ys

/-- Sort rows ascending by row index. -/
def sortAscFst (l : List (Nat × ℚ)) : List (Nat × ℚ) :=
  l.foldl (fun acc x => insertAscFst x acc) []

/-- The fused ranking exactly as claim C1 states it: fused score descending,
ties broken by row index ascending, first `k` returned.  (Pre-sorting the
rows ascending by row index and then stably sorting by score descending
breaks score ties by ascending row index.) -/
def claimFusedRank (dense bm25 : List (Nat × ℚ)) (alpha : ℚ) (top_k : Nat) :
    List (Nat × ℚ) :=
  (sortDescBy (fun p : Nat × ℚ => p.2)
    (sortAscFst (fusedList dense bm25 alpha))).take top_k

/-- The fused ranking with the tie-breaking the code actually performs:
fused score descending, ties keep first-appearance order. -/
def specFusedRank (dense bm25 : List (Nat × ℚ)) (alpha : ℚ) (top_k : Nat) :
    List (Nat × ℚ) :=
  (sortDescBy (fun p : Nat × ℚ => p.2) (fusedList dense bm25 alpha)).take top_k

theorem le_foldl_max (xs : List ℚ) : ∀ a : ℚ, a ≤ xs.foldl max a := by
  induction xs with
  | nil => intro a; exact le_refl a
  | cons y ys ih =>
    intro a
    exact le_trans (le_max_left a y) (ih (max a y))

theorem listMax_nonneg {l : List ℚ} (hpos : ∀ x ∈ l, 0 ≤ x) (hne : l ≠ []) :
    0 ≤ listMax l := by
  match l, hne with
  | x :: xs, _ =>
    exact le_trans (hpos x (List.mem_cons_self x xs)) (le_foldl_max xs x)

/-- Building a dict by inserting fresh keys in order is just a `map`. -/
theorem foldl_alSet_fresh (f : Nat × ℚ → ℚ) :
    ∀ (l acc : List (Nat × ℚ)), (l.map Prod.fst).Nodup →
      (∀ i ∈ l.map Prod.fst, i ∉ acc.map Prod.fst) →
      l.foldl (fun d p => alSet d p.1 (f p)) acc = acc ++ l.map (fun p => (p.1, f p))
  | [], acc, _, _ => by simp
  | (i, s) :: l, acc, hnd, hfresh => by
    simp only [List.map_cons, List.nodup_cons] at hnd
    have hi : i ∉ acc.map Prod.fst := hfresh i (by simp)
    simp only [List.foldl_cons]
    rw [alSet_eq_append_of_notMem hi]
    rw [foldl_alSet_fresh f l (acc ++ [(i, f (i, s))]) hnd.2 ?fresh]
    · simp
    case fresh =>
      intro j hj
      simp only [List.map_append, List.mem_append, List.map_cons, List.map_nil,
        List.mem_singleton, not_or]
      refine ⟨fun hjacc => hfresh j (List.mem_cons_of_mem _ hj) hjacc, ?_⟩
      intro hje
      exact hnd.1 (hje ▸ hj)

/-- Phase 1 of the `scores` dict: accumulating `alpha * s` over the dense
list, all keys fresh. -/
theorem foldl_scores_fresh (c : ℚ) :
    ∀ (l acc : List (Nat × ℚ)), (l.map Prod.fst).Nodup →
      (∀ i ∈ l.map Prod.fst, i ∉ acc.map Prod.fst) →
      l.foldl (fun d p => alSet d p.1 (alGetD d p.1 0 + c * p.2)) acc
        = acc ++ l.map (fun p => (p.1, c * p.2))
  | [], acc, _, _ => by simp
  | (i, s) :: l, acc, hnd, hfresh => by
    simp only [List.map_cons, List.nodup_cons] at hnd
    have hi : i ∉ acc.map Prod.fst := hfresh i (by simp)
    simp only [List.foldl_cons]
    rw [alGetD_eq_default_of_notMem hi, alSet_eq_append_of_notMem hi]
    rw [foldl_scores_fresh c l (acc ++ [(i, 0 + c * s)]) hnd.2 ?fresh]
    · simp
    case fresh =>
      intro j hj
      simp only [List.map_append, List.mem_append, List.map_cons, List.map_nil,
        List.mem_singleton, not_or]
      refine ⟨fun hjacc => hfresh j (List.mem_cons_of_mem _ hj) hjacc, ?_⟩
      intro hje
      exact hnd.1 (hje ▸ hj)

/-- Phase 2 of the `scores` dict: folding the normalized sparse dict over the
phase-1 dict updates existing rows in place and appends the sparse-only rows
in order. -/
theorem foldl_scores_update (c : ℚ) :
    ∀ (l acc : List (Nat × ℚ)), (l.map Prod.fst).Nodup → (acc.map Prod.fst).Nodup →
      l.foldl (fun d p => alSet d p.1 (alGetD d p.1 0 + c * p.2)) acc
        = acc.map (fun q => (q.1, q.2 + c * alGetD l q.1 0))
          ++ (l.filter (fun p => p.1 ∉ acc.map Prod.fst)).map (fun p => (p.1, c * p.2))
  | [], acc, _, _ => by
    simp [alGetD, alGet?]
  | (i, s) :: l, acc, hnd, hacc => by
    simp only [List.map_cons, List.nodup_cons] at hnd
    obtain ⟨hil, hndl⟩ := hnd
    simp only [List.foldl_cons]
    by_cases hmem : i ∈ acc.map Prod.fst
    · rw [alSet_eq_map_of_nodup hacc hmem]
      have hkeys := keys_map_update acc i (alGetD acc i 0 + c * s)
      rw [foldl_scores_update c l _ hndl (by rw [hkeys]; exact hacc)]
      congr 1
      · rw [List.map_map]
        apply List.map_congr_left
        intro q hq
        by_cases hqi : q.1 = i
        · have hq' : (i, q.2) ∈ acc := by
            have heq : q = (i, q.2) := by
              rw [← hqi]
            exact heq ▸ hq
          have hval : alGetD acc i 0 = q.2 := alGetD_eq_of_mem_nodup hq' hacc 0
          simp only [Function.comp_apply]
          rw [if_pos hqi]
          show (i, (alGetD acc i 0 + c * s) + c * alGetD l i 0)
              = (q.1, q.2 + c * alGetD ((i, s) :: l) q.1 0)
          rw [hqi, alGetD_cons_self, alGetD_eq_default_of_notMem hil, hval]
          simp only [mul_zero, add_zero]
        · have hu : (fun q : ℕ × ℚ =>
                if q.1 = i then (i, alGetD acc i 0 + c * s) else q) q = q := if_neg hqi
          simp only [Function.comp_apply, hu]
          rw [alGetD_cons_ne (fun he => hqi he.symm)]
      · simp only [hkeys]
        rw [List.filter_cons]
        simp [hmem]
    · rw [alGetD_eq_default_of_notMem hmem, alSet_eq_append_of_notMem hmem]
      have hacc' : ((acc ++ [(i, 0 + c * s)]).map Prod.fst).Nodup := by
        simp only [List.map_append, List.map_cons, List.map_nil]
        rw [List.nodup_append]
        refine ⟨hacc, List.nodup_singleton i, ?_⟩
        intro a ha hb
        rw [List.mem_singleton] at hb
        exact hmem (hb ▸ ha)
      rw [foldl_scores_update c l _ hndl hacc']
      have hA : (acc ++ [(i, 0 + c * s)]).map (fun q => (q.1, q.2 + c * alGetD l q.1 0))
          = acc.map (fun q => (q.1, q.2 + c * alGetD ((i, s) :: l) q.1 0)) ++ [(i, c * s)] := by
        rw [List.map_append]
        congr 1
        · apply List.map_congr_left
          intro q hq
          have hqi : q.1 ≠ i := by
            intro he
            exact hmem (he ▸ List.mem_map.mpr ⟨q, hq, rfl⟩)
          rw [alGetD_cons_ne (fun he => hqi he.symm)]
        · simp only [List.map_cons, List.map_nil]
          rw [alGetD_eq_default_of_notMem hil]
          norm_num
      have hB : l.filter (fun p => p.1 ∉ (acc ++ [(i, 0 + c * s)]).map Prod.fst)
          = l.filter (fun p => p.1 ∉ acc.map Prod.fst) := by
        apply List.filter_congr
        intro p hp
        have hpi : p.1 ≠ i := by
          intro he
          exact hil (he ▸ List.mem_map.mpr ⟨p, hp, rfl⟩)
        simp [hpi]
      rw [hA, hB, List.filter_cons]
      simp [hmem]

/-- On a dict with unique keys, filtering by a key predicate and reading the
values back through lookup is the same as filtering the key sequence. -/
theorem filter_map_eq_keys_filter (h : ℚ → ℚ) (P : Nat → Bool) :
    ∀ (n : List (Nat × ℚ)), (n.map Prod.fst).Nodup →
      (n.filter (fun p => P p.1)).map (fun p => (p.1, h p.2))
        = ((n.map Prod.fst).filter P).map (fun i => (i, h (alGetD n i 0)))
  | [], _ => rfl
  | (j, w) :: n, hnd => by
    simp only [List.map_cons, List.nodup_cons] at hnd
    have htail : ((n.map Prod.fst).filter P).map
          (fun i => (i, h (alGetD ((j, w) :: n) i 0)))
        = ((n.map Prod.fst).filter P).map (fun i => (i, h (alGetD n i 0))) := by
      apply List.map_congr_left
      intro x hx
      have hxn : x ∈ n.map Prod.fst := List.mem_of_mem_filter hx
      have hxj : j ≠ x := fun he => hnd.1 (he ▸ hxn)
      rw [alGetD_cons_ne hxj]
    simp only [List.map_cons, List.filter_cons]
    cases hPj : P j
    · simp only [hPj, Bool.false_eq_true, if_false]
      rw [htail]
      exact filter_map_eq_keys_filter h P n hnd.2
    · simp only [hPj, if_true, List.map_cons]
      rw [htail, filter_map_eq_keys_filter h P n hnd.2]
      simp [alGetD_cons_self]

theorem keys_pairMap (f : Nat × ℚ → ℚ) (l : List (Nat × ℚ)) :
    (l.map (fun p => (p.1, f p))).map Prod.fst = l.map Prod.fst := by
  rw [List.map_map]
  rfl

/-- The `scores` dict built by `retrieveFuse` is exactly the spec's fused
score table (same rows in the same first-appearance order, same values). -/
theorem scores_dict_eq_fusedList (dense bm25 : List (Nat × ℚ)) (alpha : ℚ)
    (hd : (dense.map Prod.fst).Nodup) (hb : (bm25.map Prod.fst).Nodup)
    (hpos : ∀ p ∈ bm25, 0 ≤ p.2) (hne : bm25 ≠ []) :
    (if 0 < listMax (bm25.map (·.2)) then
        bm25.foldl (fun d p => alSet d p.1 (p.2 / listMax (bm25.map (·.2)))) []
      else bm25.foldl (fun d p => alSet d p.1 0) []).foldl
        (fun d p => alSet d p.1 (alGetD d p.1 0 + (1 - alpha) * p.2))
        (dense.foldl (fun d p => alSet d p.1 (alGetD d p.1 0 + alpha * p.2)) [])
      = fusedList dense bm25 alpha := by
  set M := listMax (bm25.map (·.2)) with hMdef
  have hM : 0 ≤ M := by
    apply listMax_nonneg
    · intro x hx
      obtain ⟨p, hp, hpx⟩ := List.mem_map.mp hx
      exact hpx ▸ hpos p hp
    · simpa using hne
  -- the normalized sparse dict is a plain map over the sparse result
  have hnormEq : (if 0 < M then
        bm25.foldl (fun d p => alSet d p.1 (p.2 / M)) []
      else bm25.foldl (fun d p => alSet d p.1 0) [])
      = bm25.map (fun p => (p.1, if M = 0 then 0 else p.2 / M)) := by
    by_cases hM0 : 0 < M
    · rw [if_pos hM0, foldl_alSet_fresh (fun p => p.2 / M) bm25 [] hb (by simp)]
      simp only [List.nil_append]
      apply List.map_congr_left
      intro p _
      rw [if_neg (by exact fun he => absurd (he ▸ hM0) (lt_irrefl 0))]
    · rw [if_neg hM0, foldl_alSet_fresh (fun _ => 0) bm25 [] hb (by simp)]
      simp only [List.nil_append]
      apply List.map_congr_left
      intro p _
      rw [if_pos (le_antisymm (not_lt.mp hM0) hM)]
  -- phase 1: the dense list enters a fresh dict
  have hs1 : dense.foldl (fun d p => alSet d p.1 (alGetD d p.1 0 + alpha * p.2)) []
      = dense.map (fun p => (p.1, alpha * p.2)) := by
    rw [foldl_scores_fresh alpha dense [] hd (by simp)]
    simp
  rw [hnormEq, hs1]
  -- phase 2: the normalized sparse dict updates/appends
  have hkeysNorm : ((bm25.map (fun p => (p.1, if M = 0 then 0 else p.2 / M))).map
      Prod.fst) = bm25.map Prod.fst := keys_pairMap _ bm25
  have hkeysS1 : ((dense.map (fun p => (p.1, alpha * p.2))).map Prod.fst)
      = dense.map Prod.fst := keys_pairMap _ dense
  rw [foldl_scores_update (1 - alpha) _ _ (by rw [hkeysNorm]; exact hb)
    (by rw [hkeysS1]; exact hd)]
  -- assemble both halves of the spec's fused table
  rw [fusedList]
  simp only [List.map_append]
  congr 1
  · rw [List.map_map, List.map_map]
    apply List.map_congr_left
    intro p hp
    have hval : alGetD dense p.1 0 = p.2 := by
      have hpmem : (p.1, p.2) ∈ dense := by
        have : p = (p.1, p.2) := rfl
        exact this ▸ hp
      exact alGetD_eq_of_mem_nodup hpmem hd 0
    simp only [Function.comp_apply, hval]
  · have hfm := filter_map_eq_keys_filter (fun v => (1 - alpha) * v)
      (fun i => decide (i ∉ (dense.map (fun p => (p.1, alpha * p.2))).map Prod.fst))
      (bm25.map (fun p => (p.1, if M = 0 then 0 else p.2 / M)))
      (by rw [hkeysNorm]; exact hb)
    rw [hfm, hkeysNorm]
    simp only [hkeysS1]
    apply List.map_congr_left
    intro i hi
    have hinot : i ∉ dense.map Prod.fst := by
      have := List.mem_filter.mp hi
      exact of_decide_eq_true this.2
    rw [alGetD_eq_default_of_notMem hinot]
    simp

/-- `retrieveFuse` computes the spec's fused table ordered by fused score with
stable (first-appearance) tie-breaking. -/
theorem retrieveFuse_eq_specFusedRank (dense bm25 : List (Nat × ℚ)) (alpha : ℚ)
    (top_k : Nat)
    (hd : (dense.map Prod.fst).Nodup) (hb : (bm25.map Prod.fst).Nodup)
    (hpos : ∀ p ∈ bm25, 0 ≤ p.2) (hne : bm25 ≠ []) :
    retrieveFuse dense bm25 alpha top_k = specFusedRank dense bm25 alpha top_k := by
  rw [retrieveFuse, specFusedRank]
  rw [scores_dict_eq_fusedList dense bm25 alpha hd hb hpos hne]

end FusionSpec

/-! ## Concrete fixtures used by counterexamples and witnesses -/

/-- A meta row with inert id (row ids play no role in ranking claims). -/
def cexMeta (n : Nat) : Meta :=
  { paper_id := "d", page := n, kind := "text", content := "c", id := 0,
    score := none, rerank_score := none }

/-- A dense oracle whose similarities put row 2 first, then row 0. -/
def cexSearchC1 : DenseOracle := ⟨fun _ _ => [(2, 9/10), (0, 2/5)]⟩

/-- A built three-row index with sparse scores row0 = 1/2, row1 = 1, row2 = 0:
with `alpha = 1/2` and `k = 2`, rows 0 and 2 tie on fused score 9/20. -/
def cexIndexC1 : ChunkIndexState :=
  { model_name := "m", index := some cexSearchC1,
    embeddings := some [[1], [1], [1]],
    meta := [cexMeta 0, cexMeta 1, cexMeta 2],
    bm25 := some (fun _ => [1/2, 1, 0]) }

/-! ## Claim C1 -/

/-- Claim C1, counterexample.  On a built index with sparse present, where
dense returns rows `[2, 0]` (sims 9/10, 2/5) and sparse returns rows `[1, 0]`
(scores 1, 1/2), with `alpha = 1/2`, `k = 2`: rows 0 and 2 tie at fused score
9/20, the code returns row 2 (dict insertion order — stable sort), but the
claim's "ties broken by row index ascending" demands row 0.  The returned
row sets differ, so the claim as stated is false. -/
theorem C1_counterexample :
    ChunkIndex.query_dense cexIndexC1 "q" 2 = .ok [(2, (9 : ℚ)/10), (0, 2/5)] ∧
    ChunkIndex.query_bm25 cexIndexC1 "q" 2 = .ok [(1, (1 : ℚ)), (0, 1/2)] ∧
    ChunkIndex.retrieve cexIndexC1 "q" 2 (1/2) = .ok [(1, (1 : ℚ)/2), (2, 9/20)] ∧
    FusionSpec.claimFusedRank [(2, (9 : ℚ)/10), (0, 2/5)] [(1, 1), (0, 1/2)] (1/2) 2
      = [(1, (1 : ℚ)/2), (0, 9/20)] ∧
    ([(1, (1 : ℚ)/2), (2, 9/20)] : List (Nat × ℚ)) ≠ [(1, (1 : ℚ)/2), (0, 9/20)] := by
  have hdense : ChunkIndex.query_dense cexIndexC1 "q" 2
      = .ok [(2, (9 : ℚ)/10), (0, 2/5)] := rfl
  have hbm : ChunkIndex.query_bm25 cexIndexC1 "q" 2
      = .ok [(1, (1 : ℚ)), (0, 1/2)] := by
    norm_num [ChunkIndex.query_bm25, cexIndexC1, ChunkIndex.argsortDesc, sortDescBy,
      insertDescBy, List.range_succ]
  refine ⟨hdense, hbm, ?_, ?_, ?_⟩
  · rw [ChunkIndex.retrieve_ok (1/2) hdense hbm, if_neg (by simp)]
    have hfuse : ChunkIndex.retrieveFuse [(2, (9 : ℚ)/10), (0, 2/5)]
        [(1, 1), (0, 1/2)] (1/2) 2 = [(1, (1 : ℚ)/2), (2, 9/20)] := by
      norm_num [ChunkIndex.retrieveFuse, ChunkIndex.listMax, alSet, alGetD, alGet?,
        sortDescBy, insertDescBy]
    rw [hfuse]
  · norm_num [FusionSpec.claimFusedRank, FusionSpec.fusedList, ChunkIndex.listMax,
      alGetD, alGet?, sortDescBy, insertDescBy, FusionSpec.sortAscFst,
      FusionSpec.insertAscFst]
  · intro h
    simp at h

/-- Claim C1 (amended).  For a built index with a nonempty sparse result,
`retrieve(text, k, alpha)` asks `query_dense` and `query_sparse` for `k`
candidates each, normalizes sparse scores by their maximum (all 0 when the
maximum is 0), fuses `alpha * dense + (1-alpha) * normalized_sparse` with
absent contributions 0, sorts by fused score descending, and returns the
first `k` — but ties are broken by first-appearance order in the score dict
(dense-result order first, then sparse-only rows in sparse order), not by row
index ascending. -/
theorem C1_retrieve_fusion (st : ChunkIndexState) (text : String) (top_k : Nat)
    (alpha : ℚ) (dense bm : List (Nat × ℚ))
    (hdense : ChunkIndex.query_dense st text top_k = .ok dense)
    (hbm : ChunkIndex.query_bm25 st text top_k = .ok bm)
    (hne : bm ≠ [])
    (hd : (dense.map Prod.fst).Nodup) (hb : (bm.map Prod.fst).Nodup)
    (hpos : ∀ p ∈ bm, 0 ≤ p.2) :
    ChunkIndex.retrieve st text top_k alpha
      = .ok (FusionSpec.specFusedRank dense bm alpha top_k) := by
  rw [ChunkIndex.retrieve, hdense, hbm]
  show (if bm = [] then pure (dense.take top_k)
      else pure (ChunkIndex.retrieveFuse dense bm alpha top_k) : Except _ _) = _
  rw [if_neg hne,
    FusionSpec.retrieveFuse_eq_specFusedRank dense bm alpha top_k hd hb hpos hne]
  rfl

/-- Witness for C1: the amended fusion law applied at the concrete index. -/
theorem C1_witness :
    ChunkIndex.retrieve cexIndexC1 "q" 2 (1/2)
      = .ok (FusionSpec.specFusedRank [(2, (9 : ℚ)/10), (0, 2/5)]
          [(1, 1), (0, 1/2)] (1/2) 2) :=
  C1_retrieve_fusion cexIndexC1 "q" 2 (1/2) [(2, 9/10), (0, 2/5)] [(1, 1), (0, 1/2)]
    rfl
    (by norm_num [ChunkIndex.query_bm25, cexIndexC1, ChunkIndex.argsortDesc,
      sortDescBy, insertDescBy, List.range_succ])
    (by simp) (by simp) (by simp)
    (by norm_num)

/-! ## Claim C3 -/

/-- Claim C3, counterexample.  On a fresh (never built, never loaded) index,
`query_bm25` does not fail with a NotBuilt error: it returns a normal empty
result, because `self._bm25 is None` returns `[]` before anything checks
whether the index was built. -/
theorem C3_counterexample :
    ChunkIndex.query_bm25 (ChunkIndex.init "model") "q" 5 = .ok [] ∧
    ChunkIndex.query_bm25 (ChunkIndex.init "model") "q" 5
      ≠ .error ChunkIndex.QueryError.notBuilt := by
  refine ⟨rfl, ?_⟩
  intro h
  exact Except.noConfusion h

/-- Claim C3 (amended).  On an index on which neither `build` nor `load` has
been performed, `query_dense` and `retrieve` fail with the NotBuilt error, but
`query_sparse` returns an empty list rather than an error (it cannot
distinguish "not built" from "sparse capability absent"). -/
theorem C3_unbuilt_queries (model_name text : String) (top_k : Nat) (alpha : ℚ) :
    ChunkIndex.query_dense (ChunkIndex.init model_name) text top_k
        = .error .notBuilt ∧
    ChunkIndex.retrieve (ChunkIndex.init model_name) text top_k alpha
        = .error .notBuilt ∧
    ChunkIndex.query_bm25 (ChunkIndex.init model_name) text top_k = .ok [] :=
  ⟨rfl, rfl, rfl⟩

/-! ## Claim C4 -/

/-- Claim C4, counterexample.  `build` on an empty passage sequence does not
produce a valid empty index: it fails at `NearestNeighbors.fit` (sklearn
rejects an empty sample matrix), so no queries can be served from it. -/
theorem C4_counterexample :
    ChunkIndex.build (ChunkIndex.init "m") (fun _ => []) (fun _ => ⟨fun _ _ => []⟩)
      (fun _ _ => []) true [] = .error .emptyFit := rfl

/-- Claim C4 (amended).  `build` with an empty passage sequence raises (the
dense `fit` step rejects zero samples) instead of producing a valid empty
index; with at least one passage the build succeeds. -/
theorem C4_empty_build (st : ChunkIndexState) (enc : String → List ℚ)
    (fit : List (List ℚ) → DenseOracle)
    (bm25Fit : List (List String) → (List String → List ℚ))
    (sparseAvailable : Bool) (chunks : List Chunk) :
    (chunks = [] →
      ChunkIndex.build st enc fit bm25Fit sparseAvailable chunks = .error .emptyFit) ∧
    (chunks ≠ [] →
      ∃ st', ChunkIndex.build st enc fit bm25Fit sparseAvailable chunks = .ok st') := by
  constructor
  · intro h
    subst h
    rfl
  · intro h
    refine ⟨{ st with
        embeddings := some ((chunks.map (·.content)).map enc),
        meta := chunks.map metaOfChunk,
        index := some (fit ((chunks.map (·.content)).map enc)),
        bm25 := if sparseAvailable then
            some (bm25Fit ((chunks.map (·.content)).map pytokenize))
          else none }, ?_⟩
    rw [ChunkIndex.build, if_neg ?hcond]
    case hcond =>
      simp only [List.length_map, List.length_eq_zero]
      exact h

/-- Witness for C4 at an empty and a singleton chunk list. -/
theorem C4_witness :
    ChunkIndex.build (ChunkIndex.init "m") (fun _ => [1]) (fun _ => ⟨fun _ _ => []⟩)
        (fun _ _ => []) true [] = .error .emptyFit ∧
    ∃ st', ChunkIndex.build (ChunkIndex.init "m") (fun _ => [1])
        (fun _ => ⟨fun _ _ => []⟩) (fun _ _ => []) true
        [{ paper_id := "d", page := 1, kind := "text", content := "c" }] = .ok st' :=
  ⟨(C4_empty_build (ChunkIndex.init "m") (fun _ => [1]) (fun _ => ⟨fun _ _ => []⟩)
      (fun _ _ => []) true []).1 rfl,
   (C4_empty_build (ChunkIndex.init "m") (fun _ => [1]) (fun _ => ⟨fun _ _ => []⟩)
      (fun _ _ => []) true
      [{ paper_id := "d", page := 1, kind := "text", content := "c" }]).2 (by simp)⟩

/-! ## Claim C8 -/

/-- Claim C8.  `rerank(query, candidates, top_k)`: an empty pool returns `[]`
for every scoring capability (the scorer is never consulted); otherwise every
candidate gets a `rerank_score` attached with no other field changed, and the
result is the first `top_k` of the pool stably sorted descending by
`(rerank_score, score)` — relevance descending, ties by the original fused
retrieval score descending.  The result is so sorted, has length
`min top_k |candidates|`, and consists only of scored input candidates. -/
theorem C8_rerank_contract (scorer : String → String → ℚ) (q : String)
    (cands : List Meta) (top_k : Nat) :
    (∀ scorer' : String → String → ℚ, Reranker.rerank scorer' q [] top_k = []) ∧
    Reranker.rerank scorer q cands top_k
      = (sortDescBy Reranker.rerankKey (cands.map (fun c =>
          { c with rerank_score := some (scorer q c.content) }))).take top_k ∧
    SortedDesc Reranker.rerankKey (Reranker.rerank scorer q cands top_k) ∧
    (Reranker.rerank scorer q cands top_k).length = min top_k cands.length ∧
    (∀ m ∈ Reranker.rerank scorer q cands top_k, ∃ c ∈ cands,
      m = { c with rerank_score := some (scorer q c.content) }) := by
  have heq : Reranker.rerank scorer q cands top_k
      = (sortDescBy Reranker.rerankKey (cands.map (fun c =>
          { c with rerank_score := some (scorer q c.content) }))).take top_k := by
    by_cases hc : cands = []
    · subst hc
      simp [Reranker.rerank, sortDescBy]
    · rw [Reranker.rerank, if_neg hc]
  refine ⟨fun _ => rfl, heq, ?_, ?_, ?_⟩
  · rw [heq]
    exact (sortedDesc_sortDescBy Reranker.rerankKey _).sublist (List.take_sublist _ _)
  · rw [heq, List.length_take,
      (sortDescBy_perm Reranker.rerankKey _).length_eq, List.length_map]
  · intro m hm
    rw [heq] at hm
    have hm2 : m ∈ sortDescBy Reranker.rerankKey (cands.map (fun c =>
        { c with rerank_score := some (scorer q c.content) })) :=
      List.mem_of_mem_take hm
    have hm3 := (mem_sortDescBy Reranker.rerankKey).mp hm2
    obtain ⟨c, hc, hceq⟩ := List.mem_map.mp hm3
    exact ⟨c, hc, hceq.symm⟩

/-- Witness for C8: the contract applied at an empty pool and a singleton. -/
theorem C8_witness :
    Reranker.rerank (fun _ _ => (0 : ℚ)) "q" [] 3 = [] ∧
    (Reranker.rerank (fun _ _ => (0 : ℚ)) "q" [cexMeta 0] 2).length = min 2 1 :=
  ⟨(C8_rerank_contract (fun _ _ => 0) "q" [] 3).1 (fun _ _ => 0),
   (C8_rerank_contract (fun _ _ => (0 : ℚ)) "q" [cexMeta 0] 2).2.2.2.1⟩

/-! ## Claim C9 -/

/-- The id is a 64-bit truncation, so as `content` ranges over the infinitely
many strings (the other fields held fixed) two distinct contents must share
an id. -/
theorem metaOfChunk_id_collision (pid : String) (page : Nat) (kind : String) :
    ∃ c1 c2 : String, c1 ≠ c2 ∧
      (metaOfChunk ⟨pid, page, kind, c1⟩).id = (metaOfChunk ⟨pid, page, kind, c2⟩).id := by
  have hf : ∀ n : Nat,
      compute_id [pid, toString page, kind, String.mk (List.replicate n 'a')] < 2 ^ 64 :=
    fun _ => compute_id_lt _
  obtain ⟨m, n, hmn, heq⟩ := Finite.exists_ne_map_eq_of_infinite
    (fun n : ℕ => (⟨compute_id [pid, toString page, kind,
      String.mk (List.replicate n 'a')], hf n⟩ : Fin (2 ^ 64)))
  refine ⟨String.mk (List.replicate m 'a'), String.mk (List.replicate n 'a'), ?_, ?_⟩
  · intro h
    apply hmn
    have hdata : List.replicate m 'a' = List.replicate n 'a' := by
      injection h
    simpa using congrArg List.length hdata
  · exact congrArg Fin.val heq

/-- Claim C9, counterexample.  It is not true that changing the `content`
field (the other fields held fixed) always changes the id: the id keeps only
16 hex characters (64 bits) of the SHA-256 digest, so distinct contents with
equal ids exist. -/
theorem C9_counterexample :
    ¬ ∀ c1 c2 : String, c1 ≠ c2 →
        (metaOfChunk ⟨"doc", 1, "Text", c1⟩).id
          ≠ (metaOfChunk ⟨"doc", 1, "Text", c2⟩).id := by
  intro hall
  obtain ⟨c1, c2, hne, heq⟩ := metaOfChunk_id_collision "doc" 1 "Text"
  exact hall c1 c2 hne heq

/-- Claim C9 (amended).  The id is a pure deterministic function of
(document_id, page, kind, content): identical fields give identical ids, and
in `build` each row's id is computed from that row's own fields only
(independent of position, of the other rows, and of the embedding).  But the
converse direction fails: since ids carry only 64 bits, changing a single
field does not always change the id — two distinct contents with equal ids
exist. -/
theorem C9_content_address (c c' : Chunk)
    (hp : c.paper_id = c'.paper_id) (hg : c.page = c'.page)
    (hk : c.kind = c'.kind) (hc : c.content = c'.content) :
    (metaOfChunk c).id = (metaOfChunk c').id ∧
    (∀ (st : ChunkIndexState) (enc : String → List ℚ)
        (fit : List (List ℚ) → DenseOracle)
        (bm25Fit : List (List String) → (List String → List ℚ))
        (sparseAvailable : Bool) (chunks : List Chunk) (st' : ChunkIndexState),
      ChunkIndex.build st enc fit bm25Fit sparseAvailable chunks = .ok st' →
        st'.meta.map (·.id) = chunks.map (fun ch => (metaOfChunk ch).id)) ∧
    (∃ c1 c2 : String, c1 ≠ c2 ∧
      (metaOfChunk { c with content := c1 }).id
        = (metaOfChunk { c with content := c2 }).id) := by
  refine ⟨?_, ?_, ?_⟩
  · obtain ⟨p1, g1, k1, t1⟩ := c
    obtain ⟨p2, g2, k2, t2⟩ := c'
    simp only at hp hg hk hc
    subst hp
    subst hg
    subst hk
    subst hc
    rfl
  · intro st enc fit bm25Fit sparseAvailable chunks st' hbuild
    rw [ChunkIndex.build] at hbuild
    by_cases hlen : ((chunks.map (·.content)).map enc).length = 0
    · rw [if_pos hlen] at hbuild
      exact absurd hbuild (fun h => Except.noConfusion h)
    · rw [if_neg hlen] at hbuild
      have hst : st' = { st with
          embeddings := some ((chunks.map (·.content)).map enc),
          meta := chunks.map metaOfChunk,
          index := some (fit ((chunks.map (·.content)).map enc)),
          bm25 := if sparseAvailable then
              some (bm25Fit ((chunks.map (·.content)).map pytokenize))
            else none } := by
        cases hbuild
        rfl
      rw [hst]
      simp [List.map_map]
  · exact metaOfChunk_id_collision c.paper_id c.page c.kind

/-! ## Claim C2 -/

/-- The spec's fan-out budget: `per_index_k = max(3, ceil(top_k * 3 / N))`. -/
def spec_per_index_k (top_k N : Nat) : Nat :=
  max 3 (Nat.ceil ((top_k * 3 : ℚ) / N))

theorem ceil_div_eq_add_pred_div (a b : Nat) (hb : 0 < b) :
    Nat.ceil ((a : ℚ) / b) = (a + b - 1) / b := by
  have hbq : (0 : ℚ) < b := by exact_mod_cast hb
  rcases Nat.eq_zero_or_pos a with ha | ha
  · subst ha
    simp [Nat.div_eq_of_lt (Nat.sub_lt hb Nat.one_pos)]
  · have hdm := Nat.div_add_mod (a + b - 1) b
    have hmod := Nat.mod_lt (a + b - 1) hb
    have hm1 : a ≤ b * ((a + b - 1) / b) := by omega
    have hmpos : 1 ≤ (a + b - 1) / b :=
      (Nat.le_div_iff_mul_le hb).mpr (by omega)
    have hm2 : ((a + b - 1) / b - 1) * b < a := by
      have hsub : ((a + b - 1) / b - 1) * b = ((a + b - 1) / b) * b - 1 * b :=
        Nat.sub_mul _ 1 b
      have hcomm : ((a + b - 1) / b) * b = b * ((a + b - 1) / b) :=
        Nat.mul_comm _ _
      omega
    apply le_antisymm
    · rw [Nat.ceil_le, div_le_iff₀ hbq]
      calc (a : ℚ) ≤ ((b * ((a + b - 1) / b) : Nat) : ℚ) := by exact_mod_cast hm1
        _ = (((a + b - 1) / b : Nat) : ℚ) * b := by push_cast; ring
    · have hlt : (a + b - 1) / b - 1 < Nat.ceil ((a : ℚ) / b) := by
        rw [Nat.lt_ceil, lt_div_iff₀ hbq]
        calc (((a + b - 1) / b - 1 : Nat) : ℚ) * b
            = ((((a + b - 1) / b - 1) * b : Nat) : ℚ) := by push_cast; ring
          _ < a := by exact_mod_cast hm2
      omega

/-- Claim C2.  Every federation query computes
`per_index_k = max(3, ceil(top_k * 3 / N))` with `N = max(1, #loaded
indices)`, queries every loaded index with exactly that budget, and passes
the concatenated pool to the reranker requesting `top_k`;
`⌈3·top_k/N⌉ = (3·top_k + N - 1) / N` in integers, and the spec's examples
hold: `top_k = 7` gives `per_index_k = 7` at `N = 3` and `3` at `N = 10`. -/
theorem C2_aggregation_budget (scorer : String → String → ℚ) (st : CorpusState)
    (q : String) (top_k : Nat) :
    CorpusManager.aggregate_query scorer st q top_k
      = (do
          let cands ← CorpusManager.gatherCandidates st.indices q
            (spec_per_index_k top_k (max 1 st.indices.length))
          pure (Reranker.rerank scorer q cands top_k)) ∧
    spec_per_index_k top_k (max 1 st.indices.length)
      = max 3 ((top_k * 3 + max 1 st.indices.length - 1) / max 1 st.indices.length) ∧
    spec_per_index_k 7 3 = 7 ∧
    spec_per_index_k 7 10 = 3 := by
  refine ⟨rfl, ?_, ?_, ?_⟩
  · rw [spec_per_index_k]
    have hcast : ((top_k : ℚ) * 3) = ((top_k * 3 : ℕ) : ℚ) := by push_cast; ring
    rw [hcast, ceil_div_eq_add_pred_div (top_k * 3) (max 1 st.indices.length)
      (lt_of_lt_of_le Nat.one_pos (le_max_left 1 st.indices.length))]
  · have h21 : ((7 : ℕ) : ℚ) * 3 / ((3 : ℕ) : ℚ) = 7 := by norm_num
    rw [spec_per_index_k, h21]
    norm_num
  · have h21 : Nat.ceil (((7 : ℕ) : ℚ) * 3 / ((10 : ℕ) : ℚ)) = 3 := by
      rw [Nat.ceil_eq_iff (by norm_num)]
      constructor <;> norm_num
    rw [spec_per_index_k, h21]
    norm_num

/-! ## Claim C5 -/

/-- Registry entry used in delete fixtures. -/
def cexEntry : FileEntry := ⟨"u1", "data/pdfs/a.pdf"⟩

/-- A one-document federation state. -/
def cexCorpusC5 : CorpusState :=
  { indices := [("u1", cexIndexC1)], fileMap := [("a.pdf", cexEntry)] }

/-- Filesystem in which removing the source pdf raises. -/
def cexFsFail : CorpusManager.DeleteFs :=
  { pathExists := fun _ => true, removeFails := fun _ => true,
    isDir := fun _ => true, walkFiles := fun _ => ["data/index/by_id/u1/meta.pkl"],
    walkDirs := fun _ => [], snapRemoveFails := fun _ => true }

/-- Filesystem in which removing the source pdf succeeds (snapshot-file
removals still fail, which the code swallows). -/
def cexFsOk : CorpusManager.DeleteFs :=
  { pathExists := fun _ => true, removeFails := fun _ => false,
    isDir := fun _ => true, walkFiles := fun _ => ["data/index/by_id/u1/meta.pkl"],
    walkDirs := fun _ => [], snapRemoveFails := fun _ => true }

/-- Claim C5, counterexample.  When removing the source document file fails,
`delete_pdf` aborts with `deleted = false` and "Failed to remove file": the
registry entry stays, the in-memory index stays, nothing is re-persisted —
the claimed final state is not reached and the failure is surfaced, not
swallowed. -/
theorem C5_counterexample :
    CorpusManager.delete_pdf cexCorpusC5 "a.pdf" cexFsFail
      = ({ deleted := false, reason := some "Failed to remove file" },
         cexCorpusC5, []) ∧
    "a.pdf" ∈ ((CorpusManager.delete_pdf cexCorpusC5 "a.pdf" cexFsFail).2.1.fileMap.map
      Prod.fst) ∧
    "u1" ∈ ((CorpusManager.delete_pdf cexCorpusC5 "a.pdf" cexFsFail).2.1.indices.map
      Prod.fst) := by
  refine ⟨rfl, ?_, ?_⟩ <;> simp [CorpusManager.delete_pdf, cexCorpusC5, cexEntry,
    cexFsFail, alGet?]

/-- Claim C5 (amended).  For a registered filename: if the source pdf exists
(and its path is nonempty) but `os.remove` on it fails, `delete_pdf` returns
`deleted = false` with reason "Failed to remove file" and changes nothing.
Otherwise the final state is always reached — entry removed from the
registry, index dropped from memory, snapshot directory removal attempted
(when the directory exists) and the registry re-persisted — and
`deleted = true` is reported; failures removing snapshot files are swallowed
(the result never depends on them). -/
theorem C5_delete_behavior (st : CorpusState) (filename : String)
    (fs : CorpusManager.DeleteFs) (entry : FileEntry)
    (hentry : alGet? st.fileMap filename = some entry) :
    ((entry.pdf_path ≠ "" ∧ fs.pathExists entry.pdf_path = true ∧
        fs.removeFails entry.pdf_path = true) →
      CorpusManager.delete_pdf st filename fs
        = ({ deleted := false, reason := some "Failed to remove file" }, st, [])) ∧
    (¬ (entry.pdf_path ≠ "" ∧ fs.pathExists entry.pdf_path = true ∧
        fs.removeFails entry.pdf_path = true) →
      (CorpusManager.delete_pdf st filename fs).1
          = { deleted := true, reason := none } ∧
      filename ∉ ((CorpusManager.delete_pdf st filename fs).2.1.fileMap.map Prod.fst) ∧
      entry.uid ∉ ((CorpusManager.delete_pdf st filename fs).2.1.indices.map Prod.fst) ∧
      (fs.isDir (CorpusManager.index_dir_for_uid entry.uid) = true →
        CorpusManager.FsOp.rmdir (CorpusManager.index_dir_for_uid entry.uid)
          ∈ (CorpusManager.delete_pdf st filename fs).2.2) ∧
      CorpusManager.FsOp.saveMetadata ∈ (CorpusManager.delete_pdf st filename fs).2.2) ∧
    (∀ g : String → Bool,
      CorpusManager.delete_pdf st filename fs
        = CorpusManager.delete_pdf st filename { fs with snapRemoveFails := g }) := by
  have hcond : ((!(entry.pdf_path == "") && fs.pathExists entry.pdf_path) &&
        fs.removeFails entry.pdf_path) = true
      ↔ (entry.pdf_path ≠ "" ∧ fs.pathExists entry.pdf_path = true ∧
        fs.removeFails entry.pdf_path = true) := by
    simp [Bool.and_eq_true, and_assoc]
  refine ⟨?_, ?_, fun g => rfl⟩
  · intro h
    simp only [CorpusManager.delete_pdf, hentry]
    rw [if_pos (hcond.mpr h)]
  · intro h
    simp only [CorpusManager.delete_pdf, hentry]
    rw [if_neg (fun hb => h (hcond.mp hb))]
    refine ⟨rfl, notMem_keys_alErase _ _, notMem_keys_alErase _ _, ?_, ?_⟩
    · intro hdir
      rw [if_pos hdir]
      simp
    · by_cases hdir : fs.isDir (CorpusManager.index_dir_for_uid entry.uid) = true
      · rw [if_pos hdir]
        simp
      · rw [if_neg hdir]
        simp

/-- Witness for C5 at a concrete one-entry state, with a failing and a
succeeding source-file removal. -/
theorem C5_witness :
    CorpusManager.delete_pdf cexCorpusC5 "a.pdf" cexFsFail
      = ({ deleted := false, reason := some "Failed to remove file" },
         cexCorpusC5, []) ∧
    "a.pdf" ∉ ((CorpusManager.delete_pdf cexCorpusC5 "a.pdf" cexFsOk).2.1.fileMap.map
      Prod.fst) :=
  ⟨(C5_delete_behavior cexCorpusC5 "a.pdf" cexFsFail cexEntry rfl).1
      ⟨by decide, rfl, rfl⟩,
   ((C5_delete_behavior cexCorpusC5 "a.pdf" cexFsOk cexEntry rfl).2.1
      (by simp [cexFsOk])).2.1⟩

/-! ## Claim C6 -/

/-- Startup oracles: source files exist, every snapshot load raises, every
rebuild succeeds. -/
def cexOraclesC6 : CorpusManager.StartupOracles :=
  { pathExists := fun _ => true, load := fun _ => none,
    build := fun _ _ => some cexIndexC1 }

/-- A persisted registry with one entry. -/
def cexRegistry : List (String × FileEntry) := [("a.pdf", cexEntry)]

/-- Claim C6, counterexample.  On construction, an entry whose snapshot fails
to load is not "kept in the registry and left unbuilt": the code falls back
to `_build_index_for_pdf` inside `_ensure_index_for_uid`, so the index is
rebuilt eagerly during startup and cached in memory. -/
theorem C6_counterexample :
    CorpusManager.StartupEv.built "u1"
      ∈ (CorpusManager.startup cexRegistry cexOraclesC6).2 ∧
    "u1" ∈ ((CorpusManager.startup cexRegistry cexOraclesC6).1.indices.map
      Prod.fst) ∧
    alGet? (CorpusManager.startup cexRegistry cexOraclesC6).1.fileMap "a.pdf"
      = some cexEntry := by
  refine ⟨?_, ?_, ?_⟩ <;>
    simp [CorpusManager.startup, CorpusManager.load_existing_indices,
      CorpusManager.ensure_index_for_uid, cexRegistry, cexOraclesC6, cexEntry,
      alGet?, alSet]

/-- Claim C6 (amended).  On federation construction (unique filenames in the
registry, distinct uids among kept entries): every entry whose source file no
longer exists (or whose uid/path field is empty) is pruned from the registry;
every remaining entry stays registered; a loadable snapshot is loaded, never
rebuilt; an entry whose snapshot fails to load is rebuilt eagerly from its
source pdf during startup (not left for a lazy rebuild); only when that
rebuild also raises is the entry kept in the registry and left unbuilt, to be
rebuilt lazily on first use. -/
theorem C6_startup_behavior (registry : List (String × FileEntry))
    (o : CorpusManager.StartupOracles)
    (hnd : (registry.map Prod.fst).Nodup)
    (hvu : (CorpusManager.validUids o registry).Nodup) :
    ∀ p ∈ registry,
      CorpusManager.EntryOutcome o (CorpusManager.startup registry o) p := by
  intro p hp
  exact CorpusManager.loadExisting_per_entry o registry
    { indices := [], fileMap := registry } hnd hvu (by simp)
    (fun q hq => alGet?_eq_of_mem_nodup hq hnd) p hp

/-- Witness for C6 at the one-entry registry. -/
theorem C6_witness :
    CorpusManager.EntryOutcome cexOraclesC6
      (CorpusManager.startup cexRegistry cexOraclesC6) ("a.pdf", cexEntry) :=
  C6_startup_behavior cexRegistry cexOraclesC6 (by simp [cexRegistry])
    (by simp [CorpusManager.validUids, cexRegistry, cexOraclesC6, cexEntry,
      CorpusManager.entryValid])
    ("a.pdf", cexEntry) (by simp [cexRegistry])

/-! ## Claim C7 -/

/-- A meta row belonging to document `a.pdf`. -/
def cexMetaA : Meta :=
  { paper_id := "a.pdf", page := 1, kind := "text", content := "hello", id := 0,
    score := none, rerank_score := none }

/-- A built one-row index over `a.pdf`'s single passage. -/
def cexIndexA : ChunkIndexState :=
  { model_name := "m", index := some ⟨fun _ _ => [(0, 1/2)]⟩,
    embeddings := some [[1]], meta := [cexMetaA], bm25 := none }

/-- Oracles whose rebuild produces `cexIndexA` (snapshots never load). -/
def cexOraclesA : CorpusManager.StartupOracles :=
  { pathExists := fun _ => true, load := fun _ => none,
    build := fun _ _ => some cexIndexA }

/-- State after ingesting `a.pdf` once (uid `u1`). -/
def cexAddSt1 : CorpusState :=
  (CorpusManager.add_pdf_one ⟨[], []⟩ cexOraclesA (fun _ => true) "a.pdf" "u1").state

/-- State after re-ingesting `a.pdf` (fresh uid `u2`): the registry now maps
`a.pdf` to `u2`, but `u1`'s index is still loaded. -/
def cexAddSt2 : CorpusState :=
  (CorpusManager.add_pdf_one cexAddSt1 cexOraclesA (fun _ => true) "a.pdf" "u2").state

/-- State after then removing `a.pdf`: only `u2` is dropped. -/
def cexStaleChain : CorpusState :=
  (CorpusManager.delete_pdf cexAddSt2 "a.pdf" cexFsOk).2.1

theorem aggregate_query_eval {scorer : String → String → ℚ} {st : CorpusState}
    {q : String} {top_k : Nat} {cands : List Meta}
    (hg : CorpusManager.gatherCandidates st.indices q
      (max 3 (Nat.ceil ((top_k * 3 : ℚ) / (max 1 st.indices.length)))) = .ok cands) :
    CorpusManager.aggregate_query scorer st q top_k
      = .ok (Reranker.rerank scorer q cands top_k) := by
  have h1 : CorpusManager.aggregate_query scorer st q top_k
      = Except.bind (CorpusManager.gatherCandidates st.indices q
          (max 3 (Nat.ceil ((top_k * 3 : ℚ) / (max 1 st.indices.length)))))
        (fun cands => Except.ok (Reranker.rerank scorer q cands top_k)) := rfl
  rw [h1, hg]
  rfl

/-- Claim C7, counterexample.  Ingest `a.pdf` (uid u1), ingest `a.pdf` again
(uid u2), then `remove("a.pdf")` — which succeeds.  The stale u1 index is
still loaded, so a subsequent federation query returns the `a.pdf` passage:
the claim's "never returns a PassageRecord whose document_id belonged to that
filename's document" fails on this reachable state. -/
theorem C7_counterexample :
    (CorpusManager.delete_pdf cexAddSt2 "a.pdf" cexFsOk).1.deleted = true ∧
    CorpusManager.aggregate_query (fun _ _ => (0 : ℚ)) cexStaleChain "q" 1
      = .ok [{ paper_id := "a.pdf", page := 1, kind := "text", content := "hello",
               id := 0, score := some (1/2), rerank_score := some 0 }] := by
  refine ⟨rfl, ?_⟩
  have hkey : max 3 (Nat.ceil (((1 : ℕ) * 3 : ℚ)
      / ((max 1 cexStaleChain.indices.length : ℕ) : ℚ))) = 3 := by
    have hlen : cexStaleChain.indices.length = 1 := rfl
    rw [hlen]
    norm_num
  have hgather : CorpusManager.gatherCandidates cexStaleChain.indices "q"
      (max 3 (Nat.ceil (((1 : ℕ) * 3 : ℚ)
        / ((max 1 cexStaleChain.indices.length : ℕ) : ℚ))))
      = .ok [{ cexMetaA with score := some (1/2) }] := by
    rw [hkey]
    rfl
  calc CorpusManager.aggregate_query (fun _ _ => (0 : ℚ)) cexStaleChain "q" 1
      = .ok (Reranker.rerank (fun _ _ => (0 : ℚ)) "q"
          [{ cexMetaA with score := some (1/2) }] 1) := aggregate_query_eval hgather
    _ = .ok [{ paper_id := "a.pdf", page := 1, kind := "text", content := "hello",
               id := 0, score := some (1/2), rerank_score := some 0 }] := rfl

/-- Claim C7 (amended).  If, at the moment of removal, no other loaded index
(under a different uid) holds records of that filename's document — i.e.
there is no stale generation of the document in memory — then after
`remove(filename)` succeeds no subsequent federation query returns a record
with that document's id.  (The unamended claim fails when a re-ingest left a
stale generation loaded, see the counterexample.) -/
theorem C7_delete_then_query (st : CorpusState) (filename : String)
    (fs : CorpusManager.DeleteFs) (entry : FileEntry)
    (scorer : String → String → ℚ)
    (hentry : alGet? st.fileMap filename = some entry)
    (hremove_ok : ¬ (entry.pdf_path ≠ "" ∧ fs.pathExists entry.pdf_path = true ∧
      fs.removeFails entry.pdf_path = true))
    (hnostale : ∀ uid' idx', (uid', idx') ∈ st.indices → uid' ≠ entry.uid →
      ∀ m ∈ idx'.meta, m.paper_id ≠ filename) :
    (CorpusManager.delete_pdf st filename fs).1.deleted = true ∧
    ∀ (q : String) (top_k : Nat) (res : List Meta),
      CorpusManager.aggregate_query scorer
        (CorpusManager.delete_pdf st filename fs).2.1 q top_k = .ok res →
      ∀ m ∈ res, m.paper_id ≠ filename := by
  obtain ⟨hres, hstate⟩ := CorpusManager.delete_pdf_success_state hentry hremove_ok
  refine ⟨by rw [hres], ?_⟩
  intro q top_k res hagg m hm
  obtain ⟨cands, hg, hresEq⟩ := CorpusManager.aggregate_query_inv hagg
  subst hresEq
  obtain ⟨c, hc, hmc⟩ := Reranker.rerank_mem hm
  obtain ⟨uid', idx', hmem, m₀, hm₀, s, hms⟩ :=
    CorpusManager.gatherCandidates_mem hg c hc
  rw [hstate] at hmem
  have hmem' : (uid', idx') ∈ alErase st.indices entry.uid := hmem
  obtain ⟨hmem2, hne⟩ := mem_of_mem_alErase hmem'
  have hpid : m₀.paper_id ≠ filename := hnostale uid' idx' hmem2 hne m₀ hm₀
  rw [hmc, hms]
  exact hpid

/-- Witness for C7 on a single-generation state: delete succeeds and the
(empty) post-delete query result holds no `a.pdf` record. -/
theorem C7_witness :
    (CorpusManager.delete_pdf cexCorpusC5 "a.pdf" cexFsOk).1.deleted = true ∧
    ∀ m ∈ ([] : List Meta), m.paper_id ≠ "a.pdf" :=
  have hT := C7_delete_then_query cexCorpusC5 "a.pdf" cexFsOk cexEntry
    (fun _ _ => 0) rfl (by simp [cexFsOk])
    (by
      intro uid' idx' hmem hne m hm
      have hmem' : (uid', idx') ∈ [("u1", cexIndexC1)] := hmem
      rw [List.mem_singleton] at hmem'
      exact absurd (congrArg Prod.fst hmem') hne)
  ⟨hT.1, hT.2 "x" 1 [] rfl⟩

/-! ## Claim C10 -/

/-- Claim C10.  Re-ingesting a filename already in the registry overwrites
its entry with the fresh uid, but the index previously built for the old uid
stays in the in-memory map: the old uid is loaded yet no registry entry
references it (the invariant is broken), and every subsequent query still
gathers that stale index's candidates into the pool. -/
theorem C10_stale_index_on_reingest (st : CorpusState)
    (o : CorpusManager.StartupOracles) (isFile : String → Bool) (src uid : String)
    (oldEntry : FileEntry)
    (hfile : isFile src = true)
    (hpdf : CorpusManager.pyEndsWith (CorpusManager.pyLower src) ".pdf" = true)
    (hentry : alGet? st.fileMap (CorpusManager.basename src) = some oldEntry)
    (hold : oldEntry.uid ∈ st.indices.map Prod.fst)
    (hne : uid ≠ oldEntry.uid)
    (hnd : (st.fileMap.map Prod.fst).Nodup)
    (hunique : ∀ p ∈ st.fileMap, p.1 ≠ CorpusManager.basename src →
      p.2.uid ≠ oldEntry.uid) :
    alGet? (CorpusManager.add_pdf_one st o isFile src uid).state.fileMap
        (CorpusManager.basename src)
      = some (FileEntry.mk uid
          (CorpusManager.PDF_DIR ++ "/" ++ CorpusManager.basename src)) ∧
    oldEntry.uid ∈ (CorpusManager.add_pdf_one st o isFile src uid).state.indices.map
      Prod.fst ∧
    oldEntry.uid ∉ (CorpusManager.add_pdf_one st o isFile src uid).state.fileMap.map
      (fun p => p.2.uid) ∧
    (∀ idxOld (q : String) (k : Nat) ns ms cs,
      (oldEntry.uid, idxOld)
        ∈ (CorpusManager.add_pdf_one st o isFile src uid).state.indices →
      ChunkIndex.query idxOld q k = .ok ns →
      CorpusManager.metasOf idxOld ns = .ok ms →
      CorpusManager.gatherCandidates
        (CorpusManager.add_pdf_one st o isFile src uid).state.indices q k = .ok cs →
      ∀ m ∈ ms, m ∈ cs) := by
  have hget : alGet? (alSet st.fileMap (CorpusManager.basename src)
      (FileEntry.mk uid (CorpusManager.PDF_DIR ++ "/" ++ CorpusManager.basename src)))
      (CorpusManager.basename src)
      = some (FileEntry.mk uid
          (CorpusManager.PDF_DIR ++ "/" ++ CorpusManager.basename src)) :=
    alGet?_alSet_self _ _
  have hnotin : oldEntry.uid ∉ (alSet st.fileMap (CorpusManager.basename src)
      (FileEntry.mk uid (CorpusManager.PDF_DIR ++ "/"
        ++ CorpusManager.basename src))).map (fun p => p.2.uid) := by
    intro hmem
    obtain ⟨p, hp, hpuid⟩ := List.mem_map.mp hmem
    have hpuid' : p.2.uid = oldEntry.uid := hpuid
    rcases CorpusManager.mem_alSet_nodup hnd hp with h | ⟨hpin, hpne⟩
    · rw [h] at hpuid'
      exact hne hpuid'
    · exact hunique p hpin hpne hpuid'
  rcases hens : CorpusManager.ensure_index_for_uid
      { st with fileMap := alSet st.fileMap (CorpusManager.basename src) (FileEntry.mk uid (CorpusManager.PDF_DIR ++ "/" ++ CorpusManager.basename src)) }
      o uid (CorpusManager.PDF_DIR ++ "/" ++ CorpusManager.basename src)
      with ⟨ost, evs⟩
  have hdef : CorpusManager.add_pdf_one st o isFile src uid
      = (if ¬ (isFile src ∧ CorpusManager.pyEndsWith (CorpusManager.pyLower src) ".pdf")
         then { state := st, exnRaised := false, added := false, events := [] }
         else
           match CorpusManager.ensure_index_for_uid
               { st with fileMap := alSet st.fileMap (CorpusManager.basename src) (FileEntry.mk uid (CorpusManager.PDF_DIR ++ "/" ++ CorpusManager.basename src)) }
               o uid (CorpusManager.PDF_DIR ++ "/" ++ CorpusManager.basename src) with
           | (some st2, evs) =>
             { state := st2, exnRaised := false, added := true, events := evs }
           | (none, evs) =>
             { state := { st with fileMap := alSet st.fileMap (CorpusManager.basename src) (FileEntry.mk uid (CorpusManager.PDF_DIR ++ "/" ++ CorpusManager.basename src)) },
               exnRaised := true, added := false, events := evs }) := rfl
  rw [if_neg (fun hcon => hcon ⟨hfile, hpdf⟩), hens] at hdef
  cases ost with
  | some st2 =>
    have hstate : (CorpusManager.add_pdf_one st o isFile src uid).state = st2 :=
      congrArg CorpusManager.AddOutcome.state hdef
    have hfm2 : st2.fileMap = alSet st.fileMap (CorpusManager.basename src)
        (FileEntry.mk uid (CorpusManager.PDF_DIR ++ "/"
          ++ CorpusManager.basename src)) :=
      CorpusManager.ensure_some_fileMap hens
    refine ⟨?_, ?_, ?_, ?_⟩
    · rw [hstate, hfm2]
      exact hget
    · rw [hstate]
      exact CorpusManager.ensure_some_keeps_key hens oldEntry.uid hold
    · rw [hstate, hfm2]
      exact hnotin
    · intro idxOld q k ns ms cs hmem hq hms hg
      exact CorpusManager.gatherCandidates_includes hmem hq hms hg
  | none =>
    have hstate : (CorpusManager.add_pdf_one st o isFile src uid).state
        = { st with fileMap := alSet st.fileMap (CorpusManager.basename src) (FileEntry.mk uid (CorpusManager.PDF_DIR ++ "/" ++ CorpusManager.basename src)) } :=
      congrArg CorpusManager.AddOutcome.state hdef
    refine ⟨?_, ?_, ?_, ?_⟩
    · rw [hstate]
      exact hget
    · rw [hstate]
      exact hold
    · rw [hstate]
      exact hnotin
    · intro idxOld q k ns ms cs hmem hq hms hg
      exact CorpusManager.gatherCandidates_includes hmem hq hms hg

/-- Witness for C10: re-ingesting `a.pdf` over the one-document state leaves
`u1`'s index loaded with no registry entry for it. -/
theorem C10_witness :
    alGet? (CorpusManager.add_pdf_one cexCorpusC5 cexOraclesC6 (fun _ => true)
        "a.pdf" "u2").state.fileMap "a.pdf"
      = some (FileEntry.mk "u2" "data/pdfs/a.pdf") ∧
    "u1" ∈ (CorpusManager.add_pdf_one cexCorpusC5 cexOraclesC6 (fun _ => true)
        "a.pdf" "u2").state.indices.map Prod.fst ∧
    "u1" ∉ (CorpusManager.add_pdf_one cexCorpusC5 cexOraclesC6 (fun _ => true)
        "a.pdf" "u2").state.fileMap.map (fun p => p.2.uid) :=
  have hT := C10_stale_index_on_reingest cexCorpusC5 cexOraclesC6 (fun _ => true)
    "a.pdf" "u2" cexEntry rfl (by decide) rfl (by decide) (by decide) (by decide)
    (by
      intro p hp hpne
      have hp' : p ∈ [("a.pdf", cexEntry)] := hp
      rw [List.mem_singleton] at hp'
      exact absurd (congrArg Prod.fst hp') hpne)
  ⟨hT.1, hT.2.1, hT.2.2.1⟩

/-- Witness for C9 at two identical concrete chunks. -/
theorem C9_witness :
    (metaOfChunk ⟨"doc", 3, "Caption", "fig"⟩).id
      = (metaOfChunk ⟨"doc", 3, "Caption", "fig"⟩).id ∧
    (∃ c1 c2 : String, c1 ≠ c2 ∧
      (metaOfChunk ⟨"doc", 3, "Caption", c1⟩).id
        = (metaOfChunk ⟨"doc", 3, "Caption", c2⟩).id) :=
  ⟨(C9_content_address ⟨"doc", 3, "Caption", "fig"⟩ ⟨"doc", 3, "Caption", "fig"⟩
      rfl rfl rfl rfl).1,
   (C9_content_address ⟨"doc", 3, "Caption", "fig"⟩ ⟨"doc", 3, "Caption", "fig"⟩
      rfl rfl rfl rfl).2.2⟩

end HLAI

